import Mathlib

set_option maxHeartbeats 1000000

namespace PacketReplication

/-! Shallow embedding of p4rt_app/sonic/packet_replication_entry_translation.cc:
the key/field codecs, the entry serializer, the App DB entry reader and the
two-level consistency diff engine for packet replication (multicast) entries. -/

/-- Characters treated as ASCII whitespace by the absl numeric parsers. -/
def asciiSpace (c : Char) : Bool :=
  c = ' ' || c = '\t' || c = '\n' || c = '\x0b' || c = '\x0c' || c = '\r'

/-- Value of a single hexadecimal digit character (case-insensitive), as
accepted by absl::SimpleHexAtoi. -/
def hexDigitVal (c : Char) : Option Nat :=
  if c = '0' then some 0
  else if c = '1' then some 1
  else if c = '2' then some 2
  else if c = '3' then some 3
  else if c = '4' then some 4
  else if c = '5' then some 5
  else if c = '6' then some 6
  else if c = '7' then some 7
  else if c = '8' then some 8
  else if c = '9' then some 9
  else if c = 'a' then some 10
  else if c = 'b' then some 11
  else if c = 'c' then some 12
  else if c = 'd' then some 13
  else if c = 'e' then some 14
  else if c = 'f' then some 15
  else if c = 'A' then some 10
  else if c = 'B' then some 11
  else if c = 'C' then some 12
  else if c = 'D' then some 13
  else if c = 'E' then some 14
  else if c = 'F' then some 15
  else none

/-- Value of a single decimal digit character. -/
def decDigitVal (c : Char) : Option Nat :=
  if c = '0' then some 0
  else if c = '1' then some 1
  else if c = '2' then some 2
  else if c = '3' then some 3
  else if c = '4' then some 4
  else if c = '5' then some 5
  else if c = '6' then some 6
  else if c = '7' then some 7
  else if c = '8' then some 8
  else if c = '9' then some 9
  else none

/-- Accumulating hex parser over a digit list; fails on a non-digit. -/
def parseHexCore (acc : Nat) : List Char → Option Nat
  | [] => some acc
  | c :: cs =>
    match hexDigitVal c with
    | some v => parseHexCore (16 * acc + v) cs
    | none => none

/-- Hex parser requiring at least one digit. -/
def parseHexChars (l : List Char) : Option Nat :=
  if l.isEmpty then none else parseHexCore 0 l

/-- Accumulating decimal parser over a digit list; fails on a non-digit. -/
def parseDecCore (acc : Nat) : List Char → Option Nat
  | [] => some acc
  | c :: cs =>
    match decDigitVal c with
    | some v => parseDecCore (10 * acc + v) cs
    | none => none

/-- Decimal parser requiring at least one digit. -/
def parseDecChars (l : List Char) : Option Nat :=
  if l.isEmpty then none else parseDecCore 0 l

/-- Lowercase hex digit expansion of a natural number, most significant digit
first and with no padding, matching absl::Hex formatting of a uint32. -/
def hexDigits (n : Nat) : List Char :=
  if n < 16 then [Nat.digitChar n]
  else hexDigits (n / 16) ++ [Nat.digitChar (n % 16)]
termination_by n
decreasing_by exact Nat.div_lt_self (by omega) (by omega)

/-- Decimal digit expansion of a natural number, most significant digit first,
matching absl::StrCat formatting of a uint32. -/
def decDigits (n : Nat) : List Char :=
  if n < 10 then [Nat.digitChar n]
  else decDigits (n / 10) ++ [Nat.digitChar (n % 10)]
termination_by n
decreasing_by exact Nat.div_lt_self (by omega) (by omega)

/-- Lowercase hex rendering (no 0x marker, no padding). -/
def hexStr (n : Nat) : String := String.mk (hexDigits n)

/-- Decimal rendering. -/
def decStr (n : Nat) : String := String.mk (decDigits n)

/-- Strips surrounding ASCII whitespace from a character list. -/
def trimSpace (l : List Char) : List Char :=
  ((l.dropWhile asciiSpace).reverse.dropWhile asciiSpace).reverse

/-- Strips one leading 0x or 0X marker when present. -/
def strip0x (l : List Char) : List Char :=
  match l with
  | '0' :: 'x' :: rest => rest
  | '0' :: 'X' :: rest => rest
  | l => l

/-- absl::SimpleHexAtoi into a uint32_t: optional surrounding ASCII whitespace,
an optional 0x or 0X marker, case-insensitive hex digits (at least one), and
values of 2^32 or more rejected as overflow. Sign characters are not modelled. -/
def SimpleHexAtoi32 (s : String) : Option Nat :=
  match parseHexChars (strip0x (trimSpace s.data)) with
  | some v => if v < 4294967296 then some v else none
  | none => none

/-- Splits a character list at the last occurrence of c, as std::string::rfind
followed by the two substr calls does: some (before, after) with the list equal
to before ++ c :: after and c absent from after; none when c does not occur. -/
def splitLast (c : Char) : List Char → Option (List Char × List Char)
  | [] => none
  | a :: rest =>
    match splitLast c rest with
    | some (pre, post) => some (a :: pre, post)
    | none => if a = c then some ([], rest) else none

/-- One replica of p4_pdpi ir.proto Replica: a port name and an instance
(uint32 in the proto, kept as Nat with explicit bounds where they matter). -/
structure Replica where
  port : String
  instance_ : Nat
  deriving DecidableEq, Repr

/-- pdpi IrMulticastGroupEntry: group id (uint32) plus its replica list. -/
structure MulticastGroupEntry where
  multicast_group_id : Nat
  replicas : List Replica
  deriving DecidableEq, Repr

/-- pdpi IrPacketReplicationEngineEntry, which wraps a multicast group entry. -/
structure IrPacketReplicationEngineEntry where
  multicast_group_entry : MulticastGroupEntry
  deriving DecidableEq, Repr

/-- pdpi IrEntity as used by the diff engine: only the packet replication
engine entry member is relevant here. -/
structure IrEntity where
  packet_replication_engine_entry : IrPacketReplicationEngineEntry
  deriving DecidableEq, Repr

/-- swss KeyOpFieldsValuesTuple: key, operation, and field/value pairs. -/
structure KeyOpFieldsValuesTuple where
  key : String
  op : String
  fieldsValues : List (String × String)
  deriving DecidableEq, Repr

/-- The App DB contents visible through the store handle: the key list and the
field/value pairs held under each key. -/
abbrev AppDb := List (String × List (String × String))

/-- Key enumeration of the store (p4rt_table.app_db->keys()). -/
def AppDb.keys (db : AppDb) : List String := db.map Prod.fst

/-- Field retrieval for one key (p4rt_table.app_db->get(key)). -/
def AppDb.get (db : AppDb) (k : String) : List (String × String) :=
  match db with
  | [] => []
  | (k2, fvs) :: rest => if k2 = k then fvs else AppDb.get rest k

/-- TablePrefix(): APP_P4RT_REPLICATION_IP_MULTICAST_TABLE_NAME (a constant
from the swss schema header) followed by the : separator. -/
def TablePrefix : String := "REPLICATION_IP_MULTICAST_TABLE:"

/-- absl::StartsWith. -/
def strStartsWith (s pre : String) : Bool := pre.data.isPrefixOf s.data

/-- StripTableName: rejects a key that does not begin with the table name
and the separator, and otherwise drops that leading part. -/
def StripTableName (app_db_key : String) : Except String String :=
  if strStartsWith app_db_key TablePrefix then
    .ok (String.mk (app_db_key.data.drop TablePrefix.data.length))
  else
    .error ("Invalid packet replication App DB key " ++ app_db_key)

/-- Modelled from the spec: IrMulticastGroupEntryToAppDbKey is declared in
app_db_to_pdpi_ir_translator.h, whose implementation is not among the given
sources; per the spec key grammar it renders the multicast group id as hex
with no 0x marker, no fixed width, and lowercase as the canonical case. -/
def IrMulticastGroupEntryToAppDbKey (entry : MulticastGroupEntry) : String :=
  hexStr entry.multicast_group_id

/-- GetRedisPacketReplicationTableKey: table name, separator, group id. -/
def GetRedisPacketReplicationTableKey (entry : IrPacketReplicationEngineEntry) : String :=
  TablePrefix ++ IrMulticastGroupEntryToAppDbKey entry.multicast_group_entry

/-- The port_instance field name built inside CreateEntryForInsert:
absl::StrCat(r.port(), ":0x", absl::Hex(r.instance())). -/
def EncodeReplica (r : Replica) : String :=
  r.port ++ ":0x" ++ hexStr r.instance_

/-- CreateEntryForInsert: appends one SET tuple whose fields encode every
replica (each with the unused placeholder value) and returns the key. -/
def CreateEntryForInsert (entry : IrPacketReplicationEngineEntry)
    (p4rt_inserts : List KeyOpFieldsValuesTuple) :
    String × List KeyOpFieldsValuesTuple :=
  let key := GetRedisPacketReplicationTableKey entry
  let key_value : KeyOpFieldsValuesTuple :=
    { key := key, op := "SET",
      fieldsValues := entry.multicast_group_entry.replicas.map
        (fun r => (EncodeReplica r, "replica")) }
  (key, p4rt_inserts ++ [key_value])

/-- CreateEntryForDelete: appends one DEL tuple with no fields, returns key. -/
def CreateEntryForDelete (entry : IrPacketReplicationEngineEntry)
    (p4rt_deletes : List KeyOpFieldsValuesTuple) :
    String × List KeyOpFieldsValuesTuple :=
  let key := GetRedisPacketReplicationTableKey entry
  let key_value : KeyOpFieldsValuesTuple := { key := key, op := "DEL", fieldsValues := [] }
  (key, p4rt_deletes ++ [key_value])

/-- p4.v1.Update.Type values. -/
inductive UpdateType where
  | UNSPECIFIED
  | INSERT
  | MODIFY
  | DELETE
  deriving DecidableEq, Repr

/-- CreatePacketReplicationTableUpdateForAppDb: dispatches on the update type;
INSERT and MODIFY share the insert path, DELETE takes the delete path, and any
other type yields an invalid-argument error with the update vector untouched.
The pair returned models the StatusOr result plus the by-reference vector. -/
def CreatePacketReplicationTableUpdateForAppDb (update_type : UpdateType)
    (entry : IrPacketReplicationEngineEntry)
    (kfv_updates : List KeyOpFieldsValuesTuple) :
    Except String String × List KeyOpFieldsValuesTuple :=
  match update_type with
  | .INSERT =>
    let r := CreateEntryForInsert entry kfv_updates
    (.ok r.1, r.2)
  | .MODIFY =>
    let r := CreateEntryForInsert entry kfv_updates
    (.ok r.1, r.2)
  | .DELETE =>
    let r := CreateEntryForDelete entry kfv_updates
    (.ok r.1, r.2)
  | .UNSPECIFIED =>
    (.error "Unsupported update type", kfv_updates)

/-- The field-name decoding done inside the replica loop of
GetAllAppDbPacketReplicationTableEntries: rfind of the separator, then
SimpleHexAtoi of the suffix; the decoded port keeps everything before the
last separator. -/
def DecodeReplica (field_name : String) : Except String Replica :=
  match splitLast ':' field_name.data with
  | none =>
    .error ("Unexpected multicast port/instance format '" ++ field_name ++
      "' for APP DB packet replication")
  | some (pre, post) =>
    match SimpleHexAtoi32 (String.mk post) with
    | none =>
      .error ("Unexpected replica instance value '" ++ String.mk post ++
        "' for APP DB packet replication")
    | some inst => .ok { port := String.mk pre, instance_ := inst }

/-- The replica-building loop: decodes every field name in order, aborting on
the first failure; field values are ignored. -/
def buildReplicas : List (String × String) → Except String (List Replica)
  | [] => .ok []
  | fv :: rest =>
    match DecodeReplica fv.1 with
    | .error e => .error e
    | .ok r =>
      match buildReplicas rest with
      | .error e => .error e
      | .ok rs => .ok (r :: rs)

/-- GetAllPacketReplicationTableEntryKeys: every store key that begins with
the table name. -/
def GetAllPacketReplicationTableEntryKeys (db : AppDb) : List String :=
  (AppDb.keys db).filter (fun k => strStartsWith k TablePrefix)

/-- The per-key body of GetAllAppDbPacketReplicationTableEntries: strip the
table name, hex-parse the group id, then decode every field into a replica. -/
def ReadPacketReplicationEntry (db : AppDb) (key : String) :
    Except String IrPacketReplicationEngineEntry :=
  match StripTableName key with
  | .error e => .error e
  | .ok multicast_group_id =>
    match SimpleHexAtoi32 multicast_group_id with
    | none =>
      .error ("Failed to parse multicast_group_id from App DB packet " ++
        "replication entry key '" ++ key)
    | some group_id =>
      match buildReplicas (AppDb.get db key) with
      | .error e => .error e
      | .ok rs =>
        .ok { multicast_group_entry := { multicast_group_id := group_id, replicas := rs } }

/-- The key loop of GetAllAppDbPacketReplicationTableEntries, aborting the
whole read on the first failing key. -/
def GetAllAppDbEntriesCore (db : AppDb) :
    List String → Except String (List IrPacketReplicationEngineEntry)
  | [] => .ok []
  | k :: ks =>
    match ReadPacketReplicationEntry db k with
    | .error e => .error e
    | .ok entry =>
      match GetAllAppDbEntriesCore db ks with
      | .error e => .error e
      | .ok es => .ok (entry :: es)

/-- GetAllAppDbPacketReplicationTableEntries: reads one entry per key found
under the table name. -/
def GetAllAppDbPacketReplicationTableEntries (db : AppDb) :
    Except String (List IrPacketReplicationEngineEntry) :=
  GetAllAppDbEntriesCore db (GetAllPacketReplicationTableEntryKeys db)

/-- Multicast group id of an entity. -/
def groupIdOf (e : IrEntity) : Nat :=
  e.packet_replication_engine_entry.multicast_group_entry.multicast_group_id

/-- Replica list of an entity. -/
def replicasOf (e : IrEntity) : List Replica :=
  e.packet_replication_engine_entry.multicast_group_entry.replicas

/-- The diagnostic port_instance rendering used by the diff engine:
absl::StrCat(replica.port(), "_", replica.instance()), instance in decimal. -/
def piStr (r : Replica) : String := r.port ++ "_" ++ decStr r.instance_

/-- Ordered-set insertion, the effect of absl::btree_set insert on the model
of a set as a strictly sorted list. -/
def setInsert (s : List String) (x : String) : List String :=
  match s with
  | [] => [x]
  | y :: rest =>
    if x < y then x :: y :: rest
    else if x = y then y :: rest
    else y :: setInsert rest x

/-- The btree_set of port_instance strings built from a replica list. -/
def piSet (rs : List Replica) : List String :=
  rs.foldl (fun s r => setInsert s (piStr r)) []

/-- std::set_difference on two sorted ranges: elements of the first range not
present in the second, in order. -/
def setDifference : List String → List String → List String
  | [], _ => []
  | a :: as_, [] => a :: as_
  | a :: as_, b :: bs =>
    if a < b then a :: setDifference as_ (b :: bs)
    else if b < a then setDifference (a :: as_) bs
    else setDifference as_ bs
termination_by a b => a.length + b.length
decreasing_by all_goals simp_arith

/-- Discrepancy template: a replica the cache lacks. -/
def cacheMissingReplicaMsg (d : String) (id : Nat) : String :=
  "Packet replication cache is missing replica " ++ d ++ " for group id " ++ decStr id

/-- Discrepancy template: a replica the App DB lacks. -/
def appDbMissingReplicaMsg (d : String) (id : Nat) : String :=
  "APP DB is missing replica " ++ d ++ " for group id " ++ decStr id

/-- Discrepancy template: a whole group the cache lacks. -/
def cacheMissingGroupMsg (id : Nat) : String :=
  "Packet replication cache is missing multicast group ID " ++ decStr id

/-- Discrepancy template: a whole group the App DB lacks. -/
def appDbMissingGroupMsg (id : Nat) : String :=
  "APP DB is missing multicast group ID " ++ decStr id

/-- ComparePacketReplicationEntities: renders each side's replicas as a
btree_set of port_instance strings, then appends one failure line per element
of each one-sided set difference; both directions cite the App DB entity's
group id. -/
def ComparePacketReplicationEntities (entity_app_db entity_cache : IrEntity)
    (failures : List String) : List String :=
  let group_entry_app_db := entity_app_db.packet_replication_engine_entry.multicast_group_entry
  let group_entry_cache := entity_cache.packet_replication_engine_entry.multicast_group_entry
  let port_instance_app_db := piSet group_entry_app_db.replicas
  let port_instance_cache := piSet group_entry_cache.replicas
  let differences := setDifference port_instance_app_db port_instance_cache
  let failures := failures ++ differences.map
    (fun d => cacheMissingReplicaMsg d group_entry_app_db.multicast_group_id)
  let differences2 := setDifference port_instance_cache port_instance_app_db
  failures ++ differences2.map
    (fun d => appDbMissingReplicaMsg d group_entry_app_db.multicast_group_id)

/-- Insert-or-replace into an ordered map modelled as a strictly key-sorted
association list, the effect of btree_map operator[] plus assignment. -/
def mapInsert (m : List (Nat × IrEntity)) (k : Nat) (v : IrEntity) :
    List (Nat × IrEntity) :=
  match m with
  | [] => [(k, v)]
  | (k2, v2) :: rest =>
    if k < k2 then (k, v) :: (k2, v2) :: rest
    else if k = k2 then (k, v) :: rest
    else (k2, v2) :: mapInsert rest k v

/-- Lookup in the ordered-map model (btree_map find). -/
def mapFind (m : List (Nat × IrEntity)) (k : Nat) : Option IrEntity :=
  match m with
  | [] => none
  | (k2, v) :: rest => if k2 = k then some v else mapFind rest k

/-- The map-building loops of ComparePacketReplicationTableEntries: one
insert-or-replace per entity, keyed by multicast group id, so a duplicated id
keeps the last entity seen. -/
def buildMap (entries : List IrEntity) : List (Nat × IrEntity) :=
  entries.foldl (fun m e => mapInsert m (groupIdOf e) e) []

/-- ComparePacketReplicationTableEntries: builds both group-id maps, then
walks the App DB map (missing-group failure or member comparison per id) and
finally the cache map (missing-group failure for ids absent from App DB). -/
def ComparePacketReplicationTableEntries
    (entries_app_db entries_cache : List IrEntity) : List String :=
  let map_app_db := buildMap entries_app_db
  let map_cache := buildMap entries_cache
  let failures := map_app_db.foldl (fun fs p =>
    match mapFind map_cache p.1 with
    | none => fs ++ [cacheMissingGroupMsg p.1]
    | some e => ComparePacketReplicationEntities p.2 e fs) []
  map_cache.foldl (fun fs p =>
    match mapFind map_app_db p.1 with
    | none => fs ++ [appDbMissingGroupMsg p.1]
    | some _ => fs) failures

/-! Digit and parser lemmas. -/

theorem hexDigitVal_digitChar : ∀ d < 16, hexDigitVal (Nat.digitChar d) = some d := by decide

theorem decDigitVal_digitChar : ∀ d < 10, decDigitVal (Nat.digitChar d) = some d := by decide

theorem digitChar_ne_colon : ∀ d < 16, Nat.digitChar d ≠ ':' := by decide

theorem digitChar_not_space : ∀ d < 16, asciiSpace (Nat.digitChar d) = false := by decide

theorem digitChar_isDigit : ∀ d < 10, (Nat.digitChar d).isDigit = true := by decide

theorem hexDigits_ne_nil (n : Nat) : hexDigits n ≠ [] := by
  rw [hexDigits]
  split <;> simp

theorem decDigits_ne_nil (n : Nat) : decDigits n ≠ [] := by
  rw [decDigits]
  split <;> simp

theorem hexDigits_forall {P : Char → Prop} (hP : ∀ d < 16, P (Nat.digitChar d)) :
    ∀ n, ∀ c ∈ hexDigits n, P c := by
  intro n
  induction n using Nat.strong_induction_on with
  | _ n ih =>
    rw [hexDigits]
    split
    · next h =>
      intro c hc
      simp only [List.mem_singleton] at hc
      subst hc
      exact hP n h
    · next h =>
      intro c hc
      rcases List.mem_append.mp hc with hc | hc
      · exact ih (n / 16) (Nat.div_lt_self (by omega) (by omega)) c hc
      · simp only [List.mem_singleton] at hc
        subst hc
        exact hP (n % 16) (Nat.mod_lt _ (by omega))

theorem decDigits_forall {P : Char → Prop} (hP : ∀ d < 10, P (Nat.digitChar d)) :
    ∀ n, ∀ c ∈ decDigits n, P c := by
  intro n
  induction n using Nat.strong_induction_on with
  | _ n ih =>
    rw [decDigits]
    split
    · next h =>
      intro c hc
      simp only [List.mem_singleton] at hc
      subst hc
      exact hP n h
    · next h =>
      intro c hc
      rcases List.mem_append.mp hc with hc | hc
      · exact ih (n / 10) (Nat.div_lt_self (by omega) (by omega)) c hc
      · simp only [List.mem_singleton] at hc
        subst hc
        exact hP (n % 10) (Nat.mod_lt _ (by omega))

theorem hexDigits_not_space (n : Nat) : ∀ c ∈ hexDigits n, asciiSpace c = false :=
  hexDigits_forall (P := fun c => asciiSpace c = false) digitChar_not_space n

theorem hexDigits_no_colon (n : Nat) : ':' ∉ hexDigits n := by
  intro hmem
  exact hexDigits_forall (P := fun c => c ≠ ':') digitChar_ne_colon n ':' hmem rfl

theorem decDigits_isDigit (n : Nat) : ∀ c ∈ decDigits n, c.isDigit = true :=
  decDigits_forall (P := fun c => c.isDigit = true) digitChar_isDigit n

theorem parseHexCore_append (acc : Nat) (l₁ l₂ : List Char) :
    parseHexCore acc (l₁ ++ l₂) =
      match parseHexCore acc l₁ with
      | some v => parseHexCore v l₂
      | none => none := by
  induction l₁ generalizing acc with
  | nil => simp [parseHexCore]
  | cons c cs ih =>
    simp only [List.cons_append, parseHexCore]
    cases hexDigitVal c with
    | none => rfl
    | some v => exact ih _

theorem parseDecCore_append (acc : Nat) (l₁ l₂ : List Char) :
    parseDecCore acc (l₁ ++ l₂) =
      match parseDecCore acc l₁ with
      | some v => parseDecCore v l₂
      | none => none := by
  induction l₁ generalizing acc with
  | nil => simp [parseDecCore]
  | cons c cs ih =>
    simp only [List.cons_append, parseDecCore]
    cases decDigitVal c with
    | none => rfl
    | some v => exact ih _

theorem parseHexCore_hexDigits :
    ∀ n acc, parseHexCore acc (hexDigits n) = some (acc * 16 ^ (hexDigits n).length + n) := by
  intro n
  induction n using Nat.strong_induction_on with
  | _ n ih =>
    intro acc
    rw [hexDigits]
    split
    · next h =>
      simp only [parseHexCore, hexDigitVal_digitChar n h, List.length_singleton, pow_one]
      congr 1
      omega
    · next h =>
      rw [parseHexCore_append]
      rw [ih (n / 16) (Nat.div_lt_self (by omega) (by omega)) acc]
      simp only [parseHexCore, hexDigitVal_digitChar (n % 16) (Nat.mod_lt _ (by omega)),
        List.length_append, List.length_singleton, pow_succ]
      congr 1
      generalize (16 : Nat) ^ (hexDigits (n / 16)).length = m
      rw [← Nat.mul_assoc]
      omega

theorem parseDecCore_decDigits :
    ∀ n acc, parseDecCore acc (decDigits n) = some (acc * 10 ^ (decDigits n).length + n) := by
  intro n
  induction n using Nat.strong_induction_on with
  | _ n ih =>
    intro acc
    rw [decDigits]
    split
    · next h =>
      simp only [parseDecCore, decDigitVal_digitChar n h, List.length_singleton, pow_one]
      congr 1
      omega
    · next h =>
      rw [parseDecCore_append]
      rw [ih (n / 10) (Nat.div_lt_self (by omega) (by omega)) acc]
      simp only [parseDecCore, decDigitVal_digitChar (n % 10) (Nat.mod_lt _ (by omega)),
        List.length_append, List.length_singleton, pow_succ]
      congr 1
      generalize (10 : Nat) ^ (decDigits (n / 10)).length = m
      rw [← Nat.mul_assoc]
      omega

theorem parseHexChars_hexDigits (n : Nat) : parseHexChars (hexDigits n) = some n := by
  unfold parseHexChars
  rw [if_neg (by simp [List.isEmpty_iff, hexDigits_ne_nil n])]
  rw [parseHexCore_hexDigits n 0]
  simp

theorem parseDecChars_decDigits (n : Nat) : parseDecChars (decDigits n) = some n := by
  unfold parseDecChars
  rw [if_neg (by simp [List.isEmpty_iff, decDigits_ne_nil n])]
  rw [parseDecCore_decDigits n 0]
  simp

theorem decDigits_injective {m n : Nat} (h : decDigits m = decDigits n) : m = n := by
  have h1 := parseDecChars_decDigits m
  rw [h, parseDecChars_decDigits n] at h1
  exact (Option.some_injective _ h1).symm

theorem decStr_injective {m n : Nat} (h : decStr m = decStr n) : m = n := by
  apply decDigits_injective
  simpa [decStr] using congrArg String.data h

theorem hexDigits_injective {m n : Nat} (h : hexDigits m = hexDigits n) : m = n := by
  have h1 := parseHexChars_hexDigits m
  rw [h, parseHexChars_hexDigits n] at h1
  exact (Option.some_injective _ h1).symm

/-! splitLast lemmas. -/

theorem splitLast_of_not_mem {c : Char} {l : List Char} (h : c ∉ l) : splitLast c l = none := by
  induction l with
  | nil => rfl
  | cons a rest ih =>
    have h1 : ¬ a = c := fun hac => h (by simp [hac])
    have h2 : c ∉ rest := fun hm => h (List.mem_cons_of_mem _ hm)
    simp [splitLast, ih h2, h1]

theorem splitLast_append (c : Char) (l₁ l₂ : List Char) (h : c ∉ l₂) :
    splitLast c (l₁ ++ c :: l₂) = some (l₁, l₂) := by
  induction l₁ with
  | nil =>
    simp [splitLast, splitLast_of_not_mem h]
  | cons a as ih =>
    simp [splitLast, ih]

/-! String data lemmas. -/

theorem str_data_inj {s t : String} (h : s.data = t.data) : s = t := by
  cases s
  cases t
  exact congrArg String.mk h

theorem str_mk_data (s : String) : String.mk s.data = s := rfl

/-! Whitespace trimming. -/

theorem dropWhile_eq_self_of_all {p : Char → Bool} {l : List Char}
    (h : ∀ c ∈ l, p c = false) : l.dropWhile p = l := by
  cases l with
  | nil => rfl
  | cons a rest =>
    rw [List.dropWhile_cons, if_neg]
    simp [h a (by simp)]

theorem trimSpace_eq_self_of_all {l : List Char}
    (h : ∀ c ∈ l, asciiSpace c = false) : trimSpace l = l := by
  unfold trimSpace
  rw [dropWhile_eq_self_of_all h]
  rw [dropWhile_eq_self_of_all (fun c hc => h c (List.mem_reverse.mp hc))]
  exact List.reverse_reverse l

/-! Field codec round trip. -/

theorem simpleHexAtoi32_hex_encoded (n : Nat) (h : n < 4294967296) :
    SimpleHexAtoi32 (String.mk ('0' :: 'x' :: hexDigits n)) = some n := by
  have hall : ∀ c ∈ '0' :: 'x' :: hexDigits n, asciiSpace c = false := by
    intro c hc
    rcases List.mem_cons.mp hc with h1 | hc
    · subst h1; rfl
    rcases List.mem_cons.mp hc with h1 | hc
    · subst h1; rfl
    · exact hexDigits_not_space n c hc
  unfold SimpleHexAtoi32
  rw [show (String.mk ('0' :: 'x' :: hexDigits n)).data = '0' :: 'x' :: hexDigits n from rfl]
  rw [trimSpace_eq_self_of_all hall]
  rw [show strip0x ('0' :: 'x' :: hexDigits n) = hexDigits n from rfl]
  rw [parseHexChars_hexDigits]
  simp [h]

/-- C1: decoding the field name produced by the replica encoder, which formats
port, the :0x marker and the lowercase hex of the instance, by splitting at
the rightmost separator and hex-parsing the suffix, returns exactly the
original port and instance, for every port string (colons included) and every
instance below 2^32. -/
theorem replica_encode_decode_roundtrip (port : String) (inst : Nat)
    (h : inst < 4294967296) :
    DecodeReplica (EncodeReplica { port := port, instance_ := inst }) =
      .ok { port := port, instance_ := inst } := by
  unfold EncodeReplica DecodeReplica
  have hdata : ((({ port := port, instance_ := inst } : Replica).port ++ ":0x") ++
      hexStr inst).data = port.data ++ ':' :: ('0' :: 'x' :: hexDigits inst) := by
    rw [String.data_append, String.data_append]
    show port.data ++ [':', '0', 'x'] ++ hexDigits inst = _
    rw [List.append_assoc]
    rfl
  rw [hdata]
  rw [splitLast_append ':' port.data ('0' :: 'x' :: hexDigits inst) (by
    intro hc
    rcases List.mem_cons.mp hc with h1 | hc
    · exact absurd h1 (by decide)
    rcases List.mem_cons.mp hc with h1 | hc
    · exact absurd h1 (by decide)
    · exact hexDigits_no_colon inst hc)]
  simp only [simpleHexAtoi32_hex_encoded inst h]

theorem replica_encode_decode_roundtrip_witness :
    DecodeReplica (EncodeReplica { port := "Ethernet1:2", instance_ := 4294967295 }) =
      .ok { port := "Ethernet1:2", instance_ := 4294967295 } :=
  replica_encode_decode_roundtrip "Ethernet1:2" 4294967295 (by decide)

/-! Serializer claims. -/

/-- C7: serializing with MODIFY produces exactly the same result as with
INSERT, namely the key of the entry plus one appended SET tuple at that key
whose fields are the encoded form of every replica. -/
theorem modify_insert_same_mutation (entry : IrPacketReplicationEngineEntry)
    (kfvs : List KeyOpFieldsValuesTuple) :
    CreatePacketReplicationTableUpdateForAppDb .MODIFY entry kfvs =
      CreatePacketReplicationTableUpdateForAppDb .INSERT entry kfvs ∧
    CreatePacketReplicationTableUpdateForAppDb .MODIFY entry kfvs =
      (.ok (GetRedisPacketReplicationTableKey entry),
        kfvs ++ [{ key := GetRedisPacketReplicationTableKey entry, op := "SET",
                   fieldsValues := entry.multicast_group_entry.replicas.map
                     (fun r => (EncodeReplica r, "replica")) }]) :=
  ⟨rfl, rfl⟩

/-- C8: an update type outside INSERT, MODIFY and DELETE makes the serializer
fail with the unsupported-operation error, and the caller-supplied mutation
vector comes back unchanged. -/
theorem unsupported_update_type_error (t : UpdateType)
    (entry : IrPacketReplicationEngineEntry) (kfvs : List KeyOpFieldsValuesTuple)
    (h1 : t ≠ .INSERT) (h2 : t ≠ .MODIFY) (h3 : t ≠ .DELETE) :
    (∃ e, (CreatePacketReplicationTableUpdateForAppDb t entry kfvs).1 = .error e) ∧
    (CreatePacketReplicationTableUpdateForAppDb t entry kfvs).2 = kfvs := by
  cases t with
  | UNSPECIFIED => exact ⟨⟨"Unsupported update type", rfl⟩, rfl⟩
  | INSERT => exact absurd rfl h1
  | MODIFY => exact absurd rfl h2
  | DELETE => exact absurd rfl h3

theorem unsupported_update_type_error_witness :
    (∃ e, (CreatePacketReplicationTableUpdateForAppDb .UNSPECIFIED
      { multicast_group_entry := { multicast_group_id := 1, replicas := [] } } []).1 =
        .error e) ∧
    (CreatePacketReplicationTableUpdateForAppDb .UNSPECIFIED
      { multicast_group_entry := { multicast_group_id := 1, replicas := [] } } []).2 = [] :=
  unsupported_update_type_error .UNSPECIFIED
    { multicast_group_entry := { multicast_group_id := 1, replicas := [] } } []
    (by decide) (by decide) (by decide)

/-! Reader behaviour on keys without the table name. -/

theorem appdb_get_cons_ne {key k : String} (fvs : List (String × String)) (db : AppDb)
    (h : key ≠ k) : AppDb.get ((key, fvs) :: db) k = AppDb.get db k := by
  simp [AppDb.get, h]

theorem readEntry_cons_ne {key k : String} (fvs : List (String × String)) (db : AppDb)
    (h : key ≠ k) :
    ReadPacketReplicationEntry ((key, fvs) :: db) k = ReadPacketReplicationEntry db k := by
  unfold ReadPacketReplicationEntry
  rw [appdb_get_cons_ne fvs db h]

theorem entriesCore_congr (db1 db2 : AppDb) (ks : List String)
    (h : ∀ k ∈ ks, ReadPacketReplicationEntry db1 k = ReadPacketReplicationEntry db2 k) :
    GetAllAppDbEntriesCore db1 ks = GetAllAppDbEntriesCore db2 ks := by
  induction ks with
  | nil => rfl
  | cons k ks ih =>
    unfold GetAllAppDbEntriesCore
    rw [h k (by simp), ih (fun k2 hk => h k2 (List.mem_cons_of_mem _ hk))]

theorem mem_filtered_keys_startsWith {db : AppDb} {k : String}
    (h : k ∈ GetAllPacketReplicationTableEntryKeys db) :
    strStartsWith k TablePrefix = true := by
  unfold GetAllPacketReplicationTableEntryKeys at h
  exact (List.mem_filter.mp h).2

/-- C4 counterexample: a store holding only the key wrongtable:a, which lacks
the table name, is read back successfully as the empty entry list instead of
failing with an invalid-encoding error. -/
theorem nonprefixed_key_read_succeeds :
    GetAllAppDbPacketReplicationTableEntries [("wrongtable:a", [("x", "y")])] =
      .ok [] := by
  rfl

/-- C4 amended: a store key that does not begin with the table name is never
enumerated by the reader and leaves the read result untouched (it is treated
as another table's key); StripTableName itself, applied to such a key,
rejects it with the invalid-key error. -/
theorem nonprefixed_key_skipped (key : String) (fvs : List (String × String))
    (db : AppDb) (h : strStartsWith key TablePrefix = false) :
    GetAllAppDbPacketReplicationTableEntries ((key, fvs) :: db) =
      GetAllAppDbPacketReplicationTableEntries db ∧
    StripTableName key = .error ("Invalid packet replication App DB key " ++ key) := by
  constructor
  · unfold GetAllAppDbPacketReplicationTableEntries
    have hkeys : GetAllPacketReplicationTableEntryKeys ((key, fvs) :: db) =
        GetAllPacketReplicationTableEntryKeys db := by
      unfold GetAllPacketReplicationTableEntryKeys AppDb.keys
      simp [List.filter_cons, h]
    rw [hkeys]
    apply entriesCore_congr
    intro k hk
    have hpre := mem_filtered_keys_startsWith hk
    apply readEntry_cons_ne
    intro hkey
    subst hkey
    rw [h] at hpre
    exact Bool.false_ne_true hpre
  · simp [StripTableName, h]

theorem nonprefixed_key_skipped_witness :
    GetAllAppDbPacketReplicationTableEntries [("wrongtable:a", [])] =
      GetAllAppDbPacketReplicationTableEntries [] ∧
    StripTableName "wrongtable:a" =
      .error ("Invalid packet replication App DB key " ++ "wrongtable:a") :=
  nonprefixed_key_skipped "wrongtable:a" [] [] (by decide)

/-! Error propagation through the reader. -/

theorem stripTableName_of_startsWith {k : String} (h : strStartsWith k TablePrefix = true) :
    StripTableName k = .ok (String.mk (k.data.drop TablePrefix.data.length)) := by
  simp [StripTableName, h]

theorem entriesCore_error_of_mem (db : AppDb) (ks : List String) (k : String)
    (hk : k ∈ ks) (e : String) (he : ReadPacketReplicationEntry db k = .error e) :
    ∃ msg, GetAllAppDbEntriesCore db ks = .error msg := by
  induction ks with
  | nil => cases hk
  | cons k2 ks ih =>
    unfold GetAllAppDbEntriesCore
    rcases List.mem_cons.mp hk with h1 | h1
    · subst h1
      rw [he]
      exact ⟨e, rfl⟩
    · cases hread : ReadPacketReplicationEntry db k2 with
      | error e2 => exact ⟨e2, rfl⟩
      | ok entry =>
        obtain ⟨msg, hmsg⟩ := ih h1
        rw [hmsg]
        exact ⟨msg, rfl⟩

theorem buildReplicas_error_of_mem (fvs : List (String × String)) (fv : String × String)
    (hm : fv ∈ fvs) (e : String) (he : DecodeReplica fv.1 = .error e) :
    ∃ msg, buildReplicas fvs = .error msg := by
  induction fvs with
  | nil => cases hm
  | cons fv2 rest ih =>
    unfold buildReplicas
    rcases List.mem_cons.mp hm with h1 | h1
    · subst h1
      rw [he]
      exact ⟨e, rfl⟩
    · cases hd : DecodeReplica fv2.1 with
      | error e2 => exact ⟨e2, rfl⟩
      | ok r =>
        obtain ⟨msg, hmsg⟩ := ih h1
        rw [hmsg]
        exact ⟨msg, rfl⟩

/-- C6: if any enumerated key under the table name carries a group-id suffix
that does not hex-parse, or any field name under such a key fails to decode
(no separator, or a non-hex suffix after the last one), the entire read fails
with an error and no entry list is produced. -/
theorem malformed_key_or_field_fails_whole_read (db : AppDb) (k : String)
    (hk : k ∈ GetAllPacketReplicationTableEntryKeys db)
    (hbad : SimpleHexAtoi32 (String.mk (k.data.drop TablePrefix.data.length)) = none ∨
      ∃ fv ∈ AppDb.get db k, ∃ e, DecodeReplica fv.1 = .error e) :
    ∃ msg, GetAllAppDbPacketReplicationTableEntries db = .error msg := by
  have hpre := mem_filtered_keys_startsWith hk
  have hread : ∃ e, ReadPacketReplicationEntry db k = .error e := by
    unfold ReadPacketReplicationEntry
    simp only [stripTableName_of_startsWith hpre]
    rcases hbad with hbad | ⟨fv, hfv, e, he⟩
    · simp only [hbad]
      exact ⟨_, rfl⟩
    · cases hx : SimpleHexAtoi32 (String.mk (k.data.drop TablePrefix.data.length)) with
      | none =>
        simp only [hx]
        exact ⟨_, rfl⟩
      | some gid =>
        obtain ⟨msg, hmsg⟩ := buildReplicas_error_of_mem (AppDb.get db k) fv hfv e he
        simp only [hx, hmsg]
        exact ⟨msg, rfl⟩
  obtain ⟨e, he⟩ := hread
  exact entriesCore_error_of_mem db _ k hk e he

theorem malformed_key_or_field_fails_whole_read_witness :
    ∃ msg, GetAllAppDbPacketReplicationTableEntries
      [("REPLICATION_IP_MULTICAST_TABLE:zz", [])] = .error msg :=
  malformed_key_or_field_fails_whole_read
    [("REPLICATION_IP_MULTICAST_TABLE:zz", [])] "REPLICATION_IP_MULTICAST_TABLE:zz"
    (by decide) (Or.inl (by decide))

/-! Reader output characterization for the entry invariant. -/

theorem entriesCore_ok_mem (db : AppDb) (ks : List String)
    (entries : List IrPacketReplicationEngineEntry)
    (h : GetAllAppDbEntriesCore db ks = .ok entries) :
    ∀ e ∈ entries, ∃ k ∈ ks, ReadPacketReplicationEntry db k = .ok e := by
  induction ks generalizing entries with
  | nil =>
    unfold GetAllAppDbEntriesCore at h
    cases h
    intro e he
    cases he
  | cons k ks ih =>
    unfold GetAllAppDbEntriesCore at h
    cases hr : ReadPacketReplicationEntry db k with
    | error e2 => rw [hr] at h; cases h
    | ok entry =>
      rw [hr] at h
      cases hc : GetAllAppDbEntriesCore db ks with
      | error e2 => rw [hc] at h; cases h
      | ok es =>
        rw [hc] at h
        cases h
        intro e he
        rcases List.mem_cons.mp he with rfl | he2
        · exact ⟨k, by simp, hr⟩
        · obtain ⟨k2, hk2, h2⟩ := ih es hc e he2
          exact ⟨k2, List.mem_cons_of_mem _ hk2, h2⟩

theorem readEntry_ok_replicas {db : AppDb} {k : String}
    {e : IrPacketReplicationEngineEntry}
    (h : ReadPacketReplicationEntry db k = .ok e) :
    buildReplicas (AppDb.get db k) = .ok e.multicast_group_entry.replicas := by
  unfold ReadPacketReplicationEntry at h
  cases hs : StripTableName k with
  | error e2 =>
    simp only [hs] at h
    exact Except.noConfusion h
  | ok gidStr =>
    simp only [hs] at h
    cases hx : SimpleHexAtoi32 gidStr with
    | none =>
      simp only [hx] at h
      exact Except.noConfusion h
    | some gid =>
      simp only [hx] at h
      cases hb : buildReplicas (AppDb.get db k) with
      | error e2 =>
        simp only [hb] at h
        exact Except.noConfusion h
      | ok rs =>
        simp only [hb] at h
        cases h
        rfl

theorem buildReplicas_ok_forall₂ {fvs : List (String × String)} {rs : List Replica}
    (h : buildReplicas fvs = .ok rs) :
    List.Forall₂ (fun fv r => DecodeReplica fv.1 = .ok r) fvs rs := by
  induction fvs generalizing rs with
  | nil =>
    unfold buildReplicas at h
    cases h
    exact List.Forall₂.nil
  | cons fv rest ih =>
    unfold buildReplicas at h
    cases hd : DecodeReplica fv.1 with
    | error e => rw [hd] at h; cases h
    | ok r =>
      rw [hd] at h
      cases hb : buildReplicas rest with
      | error e => rw [hb] at h; cases h
      | ok rs2 =>
        rw [hb] at h
        cases h
        exact List.Forall₂.cons hd (ih hb)

theorem forall₂_mem_right {α : Type} {β : Type} {R : α → β → Prop}
    {l1 : List α} {l2 : List β}
    (h : List.Forall₂ R l1 l2) {b : β} (hb : b ∈ l2) : ∃ a ∈ l1, R a b := by
  induction h with
  | nil => cases hb
  | cons h1 h2 ih =>
    rcases List.mem_cons.mp hb with rfl | hb2
    · exact ⟨_, by simp, h1⟩
    · obtain ⟨a, ha, hr⟩ := ih hb2
      exact ⟨a, List.mem_cons_of_mem _ ha, hr⟩

theorem nodup_of_forall₂_pairwise {fvs : List (String × String)} {rs : List Replica}
    (hf : List.Forall₂ (fun fv r => DecodeReplica fv.1 = .ok r) fvs rs)
    (hp : List.Pairwise (fun a b => DecodeReplica a.1 ≠ DecodeReplica b.1) fvs) :
    rs.Nodup := by
  induction hf with
  | nil => exact List.nodup_nil
  | @cons fv r rest rrest h1 h2 ih =>
    rcases List.pairwise_cons.mp hp with ⟨hhead, htail⟩
    refine List.nodup_cons.mpr ⟨?_, ih htail⟩
    intro hmem
    obtain ⟨fv2, hfv2, hd2⟩ := forall₂_mem_right h2 hmem
    exact hhead fv2 hfv2 (by rw [h1, hd2])

/-- C5 counterexample: the reader accepts, without error, a store whose two
distinct field names p:0x1 and p:0x01 decode to the same replica, so the
produced entry carries a duplicated (port, instance) pair and the entry
invariant fails. -/
theorem reader_duplicate_replica_counterexample :
    ¬ (∀ entries, GetAllAppDbPacketReplicationTableEntries
        [("REPLICATION_IP_MULTICAST_TABLE:a",
          [("p:0x1", "replica"), ("p:0x01", "replica")])] = .ok entries →
      ∀ e ∈ entries, e.multicast_group_entry.replicas.Nodup) := by
  intro h
  have h1 := h [⟨⟨10, [⟨"p", 1⟩, ⟨"p", 1⟩]⟩⟩] rfl
  exact absurd (h1 (⟨⟨10, [⟨"p", 1⟩, ⟨"p", 1⟩]⟩⟩ : IrPacketReplicationEngineEntry)
    (by simp)) (by decide)

/-- C5 amended: every entry produced by the reader has no duplicated
(port, instance) pair, provided that under each key the store's field names
decode pairwise differently; without that proviso two distinct field names
(such as p:0x1 and p:0x01) may decode to the same replica, which the reader
accepts without error. -/
theorem reader_entries_nodup (db : AppDb)
    (entries : List IrPacketReplicationEngineEntry)
    (hok : GetAllAppDbPacketReplicationTableEntries db = .ok entries)
    (hfields : ∀ k, List.Pairwise (fun a b => DecodeReplica a.1 ≠ DecodeReplica b.1)
      (AppDb.get db k))
    (e : IrPacketReplicationEngineEntry) (he : e ∈ entries) :
    e.multicast_group_entry.replicas.Nodup := by
  obtain ⟨k, hk, hread⟩ := entriesCore_ok_mem db _ entries hok e he
  exact nodup_of_forall₂_pairwise (buildReplicas_ok_forall₂ (readEntry_ok_replicas hread))
    (hfields k)

theorem reader_entries_nodup_witness :
    (⟨⟨10, [⟨"p", 1⟩]⟩⟩ :
      IrPacketReplicationEngineEntry).multicast_group_entry.replicas.Nodup :=
  reader_entries_nodup [("REPLICATION_IP_MULTICAST_TABLE:a", [("p:0x1", "replica")])]
    [⟨⟨10, [⟨"p", 1⟩]⟩⟩]
    rfl
    (by
      intro k
      by_cases hk : "REPLICATION_IP_MULTICAST_TABLE:a" = k <;> simp [AppDb.get, hk])
    _ (by simp)

/-! Ordered-map lemmas for the diff engine. -/

theorem mapFind_mapInsert (m : List (Nat × IrEntity)) (k : Nat) (v : IrEntity) (g : Nat) :
    mapFind (mapInsert m k v) g = if k = g then some v else mapFind m g := by
  induction m with
  | nil => simp [mapInsert, mapFind]
  | cons p rest ih =>
    obtain ⟨k2, v2⟩ := p
    by_cases h1 : k < k2
    · have e1 : mapInsert ((k2, v2) :: rest) k v = (k, v) :: (k2, v2) :: rest := by
        unfold mapInsert
        rw [if_pos h1]
      rw [e1]
      rfl
    · by_cases h2 : k = k2
      · subst h2
        have e2 : mapInsert ((k, v2) :: rest) k v = (k, v) :: rest := by
          unfold mapInsert
          rw [if_neg h1, if_pos rfl]
        rw [e2]
        by_cases hg : k = g <;> simp [mapFind, hg]
      · have e3 : mapInsert ((k2, v2) :: rest) k v = (k2, v2) :: mapInsert rest k v := by
          simp only [mapInsert]
          rw [if_neg h1, if_neg h2]
        rw [e3]
        by_cases hg2 : k2 = g
        · have hg : ¬ k = g := by omega
          simp [mapFind, ih, hg2, hg]
        · by_cases hg : k = g
          · subst hg
            simp [mapFind, ih, hg2]
          · simp [mapFind, ih, hg2, hg]

theorem buildMap_last (entries : List IrEntity) (g : Nat) :
    mapFind (buildMap entries) g =
      (entries.filter (fun e => groupIdOf e == g)).getLast? := by
  induction entries using List.reverseRecOn with
  | nil => rfl
  | append_singleton init e ih =>
    rw [buildMap, List.foldl_append]
    simp only [List.foldl_cons, List.foldl_nil]
    rw [mapFind_mapInsert]
    rw [List.filter_append]
    simp only [List.filter_cons, List.filter_nil]
    by_cases h : groupIdOf e = g
    · simp [h, List.getLast?_concat]
    · have hb : (groupIdOf e == g) = false := by simp [h]
      rw [hb]
      simp only [Bool.false_eq_true, if_neg h, if_false, List.append_nil]
      exact ih ▸ (by rw [buildMap])

/-- C10: when a group id occurs several times within one input collection, the
group-id map keeps the last entity with that id in iteration order (last write
wins), and the diff output is fully determined by the constructed maps, so a
collection with duplicated ids produces the same ordinary report as its
deduplicated form. -/
theorem duplicate_group_id_last_write_wins (entries A2 B : List IrEntity) (g : Nat)
    (hmap : buildMap entries = buildMap A2) :
    mapFind (buildMap entries) g =
      (entries.filter (fun e => groupIdOf e == g)).getLast? ∧
    ComparePacketReplicationTableEntries entries B =
      ComparePacketReplicationTableEntries A2 B := by
  refine ⟨buildMap_last entries g, ?_⟩
  unfold ComparePacketReplicationTableEntries
  rw [hmap]

/-- Small sample entity used by concrete witnesses. -/
def sampleEntity (g : Nat) (p : String) (i : Nat) : IrEntity :=
  { packet_replication_engine_entry := { multicast_group_entry :=
      { multicast_group_id := g, replicas := [{ port := p, instance_ := i }] } } }

theorem duplicate_group_id_last_write_wins_witness :
    mapFind (buildMap [sampleEntity 5 "a" 0, sampleEntity 5 "b" 1]) 5 =
      (([sampleEntity 5 "a" 0, sampleEntity 5 "b" 1]).filter
        (fun e => groupIdOf e == 5)).getLast? ∧
    ComparePacketReplicationTableEntries [sampleEntity 5 "a" 0, sampleEntity 5 "b" 1]
        [sampleEntity 5 "b" 1] =
      ComparePacketReplicationTableEntries [sampleEntity 5 "b" 1] [sampleEntity 5 "b" 1] :=
  duplicate_group_id_last_write_wins [sampleEntity 5 "a" 0, sampleEntity 5 "b" 1]
    [sampleEntity 5 "b" 1] [sampleEntity 5 "b" 1] 5 rfl

/-! Sorted-set lemmas for the member-level diff. -/

theorem setInsert_mem (s : List String) (x y : String) :
    y ∈ setInsert s x ↔ y = x ∨ y ∈ s := by
  induction s with
  | nil => simp [setInsert]
  | cons z rest ih =>
    simp only [setInsert]
    split_ifs with h1 h2
    · simp [List.mem_cons]
    · subst h2
      simp [List.mem_cons]
    · simp only [List.mem_cons, ih]
      tauto

theorem setInsert_sorted (s : List String) (x : String) (hs : List.Sorted (· < ·) s) :
    List.Sorted (· < ·) (setInsert s x) := by
  induction s with
  | nil => simp [setInsert]
  | cons z rest ih =>
    rcases List.sorted_cons.mp hs with ⟨hz, hrest⟩
    simp only [setInsert]
    split_ifs with h1 h2
    · refine List.sorted_cons.mpr ⟨?_, hs⟩
      intro b hb
      rcases List.mem_cons.mp hb with rfl | hb
      · exact h1
      · exact lt_trans h1 (hz b hb)
    · exact hs
    · have h3 : z < x := by
        rcases lt_trichotomy x z with h | h | h
        · exact absurd h h1
        · exact absurd h h2
        · exact h
      refine List.sorted_cons.mpr ⟨?_, ih hrest⟩
      intro b hb
      rcases (setInsert_mem rest x b).mp hb with rfl | hb
      · exact h3
      · exact hz b hb

theorem piSet_core_sorted (rs : List Replica) (s : List String)
    (hs : List.Sorted (· < ·) s) :
    List.Sorted (· < ·) (rs.foldl (fun s r => setInsert s (piStr r)) s) := by
  induction rs generalizing s with
  | nil => exact hs
  | cons r rest ih => exact ih _ (setInsert_sorted _ _ hs)

theorem piSet_sorted (rs : List Replica) : List.Sorted (· < ·) (piSet rs) :=
  piSet_core_sorted rs [] (by simp)

theorem piSet_core_mem (rs : List Replica) (s : List String) (y : String) :
    y ∈ rs.foldl (fun s r => setInsert s (piStr r)) s ↔
      y ∈ s ∨ ∃ r ∈ rs, piStr r = y := by
  induction rs generalizing s with
  | nil => simp
  | cons r rest ih =>
    simp only [List.foldl_cons]
    rw [ih, setInsert_mem]
    simp only [List.mem_cons]
    constructor
    · rintro ((rfl | hy) | ⟨r2, hr2, hpi⟩)
      · exact Or.inr ⟨r, Or.inl rfl, rfl⟩
      · exact Or.inl hy
      · exact Or.inr ⟨r2, Or.inr hr2, hpi⟩
    · rintro (hy | ⟨r2, rfl | hr2, hpi⟩)
      · exact Or.inl (Or.inr hy)
      · exact Or.inl (Or.inl hpi.symm)
      · exact Or.inr ⟨r2, hr2, hpi⟩

theorem piSet_mem (rs : List Replica) (y : String) :
    y ∈ piSet rs ↔ ∃ r ∈ rs, piStr r = y := by
  rw [piSet, piSet_core_mem]
  simp

theorem setDifference_sublist : ∀ a b : List String, (setDifference a b).Sublist a
  | [], b => by
    simp [setDifference]
  | a :: as_, [] => by
    simp [setDifference]
  | a :: as_, b :: bs => by
    simp only [setDifference]
    split_ifs with h1 h2
    · exact List.Sublist.cons₂ a (setDifference_sublist as_ (b :: bs))
    · exact setDifference_sublist (a :: as_) bs
    · exact List.Sublist.cons a (setDifference_sublist as_ bs)
termination_by a b => a.length + b.length
decreasing_by all_goals simp_arith

theorem setDifference_mem : ∀ a b : List String, List.Sorted (· < ·) a →
    List.Sorted (· < ·) b → ∀ x, (x ∈ setDifference a b ↔ x ∈ a ∧ x ∉ b)
  | [], b, _, _, x => by
    simp [setDifference]
  | a :: as_, [], _, _, x => by
    simp [setDifference]
  | a :: as_, b :: bs, ha, hb, x => by
    rcases List.sorted_cons.mp ha with ⟨haas, has⟩
    rcases List.sorted_cons.mp hb with ⟨hbbs, hbs⟩
    simp only [setDifference]
    split_ifs with h1 h2
    · rw [List.mem_cons, setDifference_mem as_ (b :: bs) has hb x]
      simp only [List.mem_cons]
      constructor
      · rintro (rfl | ⟨hxas, hxnb⟩)
        · refine ⟨Or.inl rfl, ?_⟩
          rintro (rfl | hxbs)
          · exact lt_irrefl x h1
          · exact lt_asymm h1 (hbbs x hxbs)
        · exact ⟨Or.inr hxas, hxnb⟩
      · rintro ⟨rfl | hxas, hxnb⟩
        · exact Or.inl rfl
        · exact Or.inr ⟨hxas, hxnb⟩
    · rw [setDifference_mem (a :: as_) bs ha hbs x]
      simp only [List.mem_cons]
      constructor
      · rintro ⟨hxa, hxbs⟩
        refine ⟨hxa, ?_⟩
        rintro (rfl | h)
        · rcases hxa with rfl | h
          · exact lt_irrefl x h2
          · exact lt_asymm h2 (haas x h)
        · exact hxbs h
      · rintro ⟨hxa, hxb⟩
        exact ⟨hxa, fun h => hxb (Or.inr h)⟩
    · have hab : a = b := le_antisymm (not_lt.mp h2) (not_lt.mp h1)
      subst hab
      rw [setDifference_mem as_ bs has hbs x]
      simp only [List.mem_cons]
      constructor
      · rintro ⟨hxas, hxbs⟩
        refine ⟨Or.inr hxas, ?_⟩
        rintro (rfl | h)
        · exact lt_irrefl x (haas x hxas)
        · exact hxbs h
      · rintro ⟨rfl | hxas, hxb⟩
        · exact absurd (Or.inl rfl) hxb
        · exact ⟨hxas, fun h => hxb (Or.inr h)⟩
termination_by a b => a.length + b.length
decreasing_by all_goals simp_arith

theorem setDifference_count (a b : List String) (ha : List.Sorted (· < ·) a)
    (hb : List.Sorted (· < ·) b) (x : String) :
    (setDifference a b).count x = if x ∈ a ∧ x ∉ b then 1 else 0 := by
  have hnd : (setDifference a b).Nodup := (setDifference_sublist a b).nodup ha.nodup
  rw [List.count_eq_of_nodup hnd]
  simp only [setDifference_mem a b ha hb x]

theorem setDifference_length_comm (a b : List String) :
    (setDifference a b).length + (setDifference b a).length =
      (setDifference b a).length + (setDifference a b).length :=
  Nat.add_comm _ _

/-! Message template lemmas: the four discrepancy templates are pairwise
distinguishable and injective in their parameters. -/

theorem str_append_left_cancel {p u v : String} (h : p ++ u = p ++ v) : u = v := by
  have hd := congrArg String.data h
  rw [String.data_append, String.data_append] at hd
  exact str_data_inj (List.append_cancel_left hd)

theorem str_ne_of_head_ne {a b u v : String} {c d : Char} {la lb : List Char}
    (ha : a.data = c :: la) (hb : b.data = d :: lb) (hcd : c ≠ d) :
    a ++ u ≠ b ++ v := by
  intro h
  have hd := congrArg String.data h
  rw [String.data_append, String.data_append, ha, hb] at hd
  simp only [List.cons_append] at hd
  injection hd with h1 h2
  exact hcd h1

theorem digits_marker_eq {u s t : List Char} : ∀ {v : List Char},
    (∀ c ∈ u, c.isDigit = true) → (∀ c ∈ v, c.isDigit = true) →
    u ++ ' ' :: s = v ++ ' ' :: t → u = v ∧ s = t := by
  induction u with
  | nil =>
    intro v hu hv h
    cases v with
    | nil =>
      simp only [List.nil_append] at h
      injection h with h1 h2
      exact ⟨rfl, h2⟩
    | cons c v2 =>
      simp only [List.nil_append, List.cons_append] at h
      injection h with h1 h2
      have hc := hv c (by simp)
      rw [← h1] at hc
      exact absurd hc (by decide)
  | cons c u2 ih =>
    intro v hu hv h
    cases v with
    | nil =>
      simp only [List.nil_append, List.cons_append] at h
      injection h with h1 h2
      have hc := hu c (by simp)
      rw [h1] at hc
      exact absurd hc (by decide)
    | cons d v2 =>
      simp only [List.cons_append] at h
      injection h with h1 h2
      obtain ⟨e1, e2⟩ := ih (fun c2 hc => hu c2 (List.mem_cons_of_mem _ hc))
        (fun c2 hc => hv c2 (List.mem_cons_of_mem _ hc)) h2
      exact ⟨by rw [h1, e1], e2⟩

theorem marker_digits_suffix_inj {x1 x2 : String} {g1 g2 : Nat}
    (h : x1 ++ (" for group id " ++ decStr g1) =
      x2 ++ (" for group id " ++ decStr g2)) :
    x1 = x2 ∧ g1 = g2 := by
  have hd := congrArg String.data h
  simp only [String.data_append, decStr] at hd
  have hrev := congrArg List.reverse hd
  simp only [List.reverse_append] at hrev
  obtain ⟨mrest, hm⟩ : ∃ rest, (" for group id " : String).data.reverse = ' ' :: rest :=
    ⟨_, rfl⟩
  rw [hm] at hrev
  rw [List.append_assoc, List.append_assoc] at hrev
  simp only [List.cons_append] at hrev
  obtain ⟨e1, e2⟩ := digits_marker_eq
    (fun c hc => decDigits_isDigit g1 c (List.mem_reverse.mp hc))
    (fun c hc => decDigits_isDigit g2 c (List.mem_reverse.mp hc)) hrev
  have hg : g1 = g2 := decDigits_injective (List.reverse_inj.mp e1)
  have hx : x1 = x2 := by
    have := List.append_cancel_left e2
    exact str_data_inj (List.reverse_inj.mp this)
  exact ⟨hx, hg⟩

theorem cacheMissingGroupMsg_eq (id : Nat) :
    cacheMissingGroupMsg id =
      "Packet replication cache is missing " ++ ("multicast group ID " ++ decStr id) := by
  unfold cacheMissingGroupMsg
  rw [show ("Packet replication cache is missing multicast group ID " : String) =
    "Packet replication cache is missing " ++ "multicast group ID " from by decide]
  rw [String.append_assoc]

theorem appDbMissingGroupMsg_eq (id : Nat) :
    appDbMissingGroupMsg id =
      "APP DB is missing " ++ ("multicast group ID " ++ decStr id) := by
  unfold appDbMissingGroupMsg
  rw [show ("APP DB is missing multicast group ID " : String) =
    "APP DB is missing " ++ "multicast group ID " from by decide]
  rw [String.append_assoc]

theorem cacheMissingReplicaMsg_eq (d : String) (id : Nat) :
    cacheMissingReplicaMsg d id =
      "Packet replication cache is missing " ++
        ("replica " ++ (d ++ (" for group id " ++ decStr id))) := by
  unfold cacheMissingReplicaMsg
  rw [show ("Packet replication cache is missing replica " : String) =
    "Packet replication cache is missing " ++ "replica " from by decide]
  simp only [String.append_assoc]

theorem appDbMissingReplicaMsg_eq (d : String) (id : Nat) :
    appDbMissingReplicaMsg d id =
      "APP DB is missing " ++ ("replica " ++ (d ++ (" for group id " ++ decStr id))) := by
  unfold appDbMissingReplicaMsg
  rw [show ("APP DB is missing replica " : String) =
    "APP DB is missing " ++ "replica " from by decide]
  simp only [String.append_assoc]

theorem cacheGroupMsg_ne_appGroupMsg (g h : Nat) :
    cacheMissingGroupMsg g ≠ appDbMissingGroupMsg h := by
  rw [cacheMissingGroupMsg_eq, appDbMissingGroupMsg_eq]
  exact str_ne_of_head_ne rfl rfl (by decide)

theorem cacheGroupMsg_ne_cacheReplicaMsg (g h : Nat) (x : String) :
    cacheMissingGroupMsg g ≠ cacheMissingReplicaMsg x h := by
  rw [cacheMissingGroupMsg_eq, cacheMissingReplicaMsg_eq]
  intro heq
  exact str_ne_of_head_ne (a := "multicast group ID ") (b := "replica ") rfl rfl
    (by decide) (str_append_left_cancel heq)

theorem cacheGroupMsg_ne_appReplicaMsg (g h : Nat) (x : String) :
    cacheMissingGroupMsg g ≠ appDbMissingReplicaMsg x h := by
  rw [cacheMissingGroupMsg_eq, appDbMissingReplicaMsg_eq]
  exact str_ne_of_head_ne rfl rfl (by decide)

theorem appGroupMsg_ne_cacheReplicaMsg (g h : Nat) (x : String) :
    appDbMissingGroupMsg g ≠ cacheMissingReplicaMsg x h := by
  rw [appDbMissingGroupMsg_eq, cacheMissingReplicaMsg_eq]
  exact str_ne_of_head_ne rfl rfl (by decide)

theorem appGroupMsg_ne_appReplicaMsg (g h : Nat) (x : String) :
    appDbMissingGroupMsg g ≠ appDbMissingReplicaMsg x h := by
  rw [appDbMissingGroupMsg_eq, appDbMissingReplicaMsg_eq]
  intro heq
  exact str_ne_of_head_ne (a := "multicast group ID ") (b := "replica ") rfl rfl
    (by decide) (str_append_left_cancel heq)

theorem cacheReplicaMsg_ne_appReplicaMsg (g h : Nat) (x y : String) :
    cacheMissingReplicaMsg x g ≠ appDbMissingReplicaMsg y h := by
  rw [cacheMissingReplicaMsg_eq, appDbMissingReplicaMsg_eq]
  exact str_ne_of_head_ne rfl rfl (by decide)

theorem cacheGroupMsg_inj {g h : Nat}
    (he : cacheMissingGroupMsg g = cacheMissingGroupMsg h) : g = h := by
  rw [cacheMissingGroupMsg_eq, cacheMissingGroupMsg_eq] at he
  exact decStr_injective (str_append_left_cancel (str_append_left_cancel he))

theorem appGroupMsg_inj {g h : Nat}
    (he : appDbMissingGroupMsg g = appDbMissingGroupMsg h) : g = h := by
  rw [appDbMissingGroupMsg_eq, appDbMissingGroupMsg_eq] at he
  exact decStr_injective (str_append_left_cancel (str_append_left_cancel he))

theorem cacheReplicaMsg_inj {x1 x2 : String} {g1 g2 : Nat}
    (he : cacheMissingReplicaMsg x1 g1 = cacheMissingReplicaMsg x2 g2) :
    x1 = x2 ∧ g1 = g2 := by
  rw [cacheMissingReplicaMsg_eq, cacheMissingReplicaMsg_eq] at he
  exact marker_digits_suffix_inj (str_append_left_cancel (str_append_left_cancel he))

theorem appReplicaMsg_inj {x1 x2 : String} {g1 g2 : Nat}
    (he : appDbMissingReplicaMsg x1 g1 = appDbMissingReplicaMsg x2 g2) :
    x1 = x2 ∧ g1 = g2 := by
  rw [appDbMissingReplicaMsg_eq, appDbMissingReplicaMsg_eq] at he
  exact marker_digits_suffix_inj (str_append_left_cancel (str_append_left_cancel he))

/-! buildMap key-structure lemmas. -/

theorem mapInsert_keys_mem (m : List (Nat × IrEntity)) (k : Nat) (v : IrEntity) (x : Nat) :
    x ∈ (mapInsert m k v).map Prod.fst ↔ x = k ∨ x ∈ m.map Prod.fst := by
  induction m with
  | nil => simp [mapInsert]
  | cons p rest ih =>
    obtain ⟨k2, v2⟩ := p
    simp only [mapInsert]
    split_ifs with h1 h2
    · simp [List.mem_cons]
    · subst h2
      simp [List.mem_cons]
    · simp only [List.map_cons, List.mem_cons, ih]
      tauto

theorem mapInsert_keys_sorted (m : List (Nat × IrEntity)) (k : Nat) (v : IrEntity)
    (hs : List.Sorted (· < ·) (m.map Prod.fst)) :
    List.Sorted (· < ·) ((mapInsert m k v).map Prod.fst) := by
  induction m with
  | nil => simp [mapInsert]
  | cons p rest ih =>
    obtain ⟨k2, v2⟩ := p
    simp only [List.map_cons] at hs
    rcases List.sorted_cons.mp hs with ⟨hz, hrest⟩
    simp only [mapInsert]
    split_ifs with h1 h2
    · simp only [List.map_cons]
      refine List.sorted_cons.mpr ⟨?_, hs⟩
      intro b hb
      rcases List.mem_cons.mp hb with rfl | hb
      · exact h1
      · exact lt_trans h1 (hz b hb)
    · subst h2
      simp only [List.map_cons]
      exact List.sorted_cons.mpr ⟨hz, hrest⟩
    · have h3 : k2 < k := by omega
      simp only [List.map_cons]
      refine List.sorted_cons.mpr ⟨?_, ih hrest⟩
      intro b hb
      rcases (mapInsert_keys_mem rest k v b).mp hb with rfl | hb
      · exact h3
      · exact hz b hb

theorem buildMap_keys_sorted (entries : List IrEntity) :
    List.Sorted (· < ·) ((buildMap entries).map Prod.fst) := by
  suffices h : ∀ (l : List IrEntity) (m : List (Nat × IrEntity)),
      List.Sorted (· < ·) (m.map Prod.fst) →
      List.Sorted (· < ·)
        ((l.foldl (fun m e => mapInsert m (groupIdOf e) e) m).map Prod.fst) by
    exact h entries [] (by simp)
  intro l
  induction l with
  | nil => intro m hm; exact hm
  | cons e rest ih => intro m hm; exact ih _ (mapInsert_keys_sorted _ _ _ hm)

theorem buildMap_keys_nodup (entries : List IrEntity) :
    ((buildMap entries).map Prod.fst).Nodup :=
  (buildMap_keys_sorted entries).nodup

theorem mapFind_eq_none_iff (m : List (Nat × IrEntity)) (g : Nat) :
    mapFind m g = none ↔ g ∉ m.map Prod.fst := by
  induction m with
  | nil => simp [mapFind]
  | cons p rest ih =>
    obtain ⟨k2, v2⟩ := p
    simp only [mapFind, List.map_cons, List.mem_cons]
    by_cases h : k2 = g
    · subst h
      simp
    · rw [if_neg h, ih]
      constructor
      · intro hn
        rintro (rfl | hm)
        · exact h rfl
        · exact hn hm
      · intro hn hm
        exact hn (Or.inr hm)

theorem mapFind_some_mem_keys {m : List (Nat × IrEntity)} {g : Nat} {v : IrEntity}
    (h : mapFind m g = some v) : g ∈ m.map Prod.fst := by
  by_contra hn
  rw [← mapFind_eq_none_iff] at hn
  rw [h] at hn
  cases hn

theorem mapInsert_ids (m : List (Nat × IrEntity)) (k : Nat) (v : IrEntity)
    (hv : groupIdOf v = k) (h : ∀ p ∈ m, groupIdOf p.2 = p.1) :
    ∀ p ∈ mapInsert m k v, groupIdOf p.2 = p.1 := by
  induction m with
  | nil =>
    intro p hp
    simp only [mapInsert, List.mem_singleton] at hp
    subst hp
    exact hv
  | cons q rest ih =>
    obtain ⟨k2, v2⟩ := q
    intro p hp
    simp only [mapInsert] at hp
    split_ifs at hp with h1 h2
    · rcases List.mem_cons.mp hp with rfl | hp2
      · exact hv
      · exact h p hp2
    · rcases List.mem_cons.mp hp with rfl | hp2
      · exact hv
      · exact h p (List.mem_cons_of_mem _ hp2)
    · rcases List.mem_cons.mp hp with rfl | hp2
      · exact h _ (by simp)
      · exact ih (fun q hq => h q (List.mem_cons_of_mem _ hq)) p hp2

theorem buildMap_ids (entries : List IrEntity) :
    ∀ p ∈ buildMap entries, groupIdOf p.2 = p.1 := by
  suffices h : ∀ (l : List IrEntity) (m : List (Nat × IrEntity)),
      (∀ p ∈ m, groupIdOf p.2 = p.1) →
      ∀ p ∈ l.foldl (fun m e => mapInsert m (groupIdOf e) e) m, groupIdOf p.2 = p.1 by
    exact h entries [] (by simp)
  intro l
  induction l with
  | nil => intro m hm; exact hm
  | cons e rest ih => intro m hm; exact ih _ (mapInsert_ids _ _ _ rfl hm)

theorem buildMap_keys_iff (entries : List IrEntity) (g : Nat) :
    g ∈ (buildMap entries).map Prod.fst ↔ g ∈ entries.map groupIdOf := by
  suffices h : ∀ (l : List IrEntity) (m : List (Nat × IrEntity)),
      g ∈ (l.foldl (fun m e => mapInsert m (groupIdOf e) e) m).map Prod.fst ↔
        g ∈ m.map Prod.fst ∨ g ∈ l.map groupIdOf by
    simpa using h entries []
  intro l
  induction l with
  | nil => intro m; simp
  | cons e rest ih =>
    intro m
    simp only [List.foldl_cons, List.map_cons, List.mem_cons]
    rw [ih, mapInsert_keys_mem]
    tauto

/-! Chunk decomposition of the diff output. -/

/-- The block of failures one App DB map entry contributes: a missing-group
line when the cache has no entity for the id, otherwise the member diff. -/
def diffChunk (map_cache : List (Nat × IrEntity)) (p : Nat × IrEntity) : List String :=
  match mapFind map_cache p.1 with
  | none => [cacheMissingGroupMsg p.1]
  | some e => ComparePacketReplicationEntities p.2 e []

/-- The block of failures one cache map entry contributes in the second loop:
a missing-group line when the App DB has no entity for the id. -/
def diffChunk2 (map_app_db : List (Nat × IrEntity)) (p : Nat × IrEntity) : List String :=
  match mapFind map_app_db p.1 with
  | none => [appDbMissingGroupMsg p.1]
  | some _ => []

theorem compareEntities_shape (e1 e2 : IrEntity) (fs : List String) :
    ComparePacketReplicationEntities e1 e2 fs =
      fs ++ ComparePacketReplicationEntities e1 e2 [] := by
  simp only [ComparePacketReplicationEntities]
  simp [List.append_assoc]

theorem cmpEmit_eq (e1 e2 : IrEntity) :
    ComparePacketReplicationEntities e1 e2 [] =
      (setDifference (piSet (replicasOf e1)) (piSet (replicasOf e2))).map
        (fun d => cacheMissingReplicaMsg d (groupIdOf e1)) ++
      (setDifference (piSet (replicasOf e2)) (piSet (replicasOf e1))).map
        (fun d => appDbMissingReplicaMsg d (groupIdOf e1)) := by
  simp [ComparePacketReplicationEntities, replicasOf, groupIdOf]

theorem foldl_append_shape {α : Type} (g : α → List String)
    (f : List String → α → List String) (hf : ∀ fs x, f fs x = fs ++ g x) :
    ∀ (l : List α) (init : List String), l.foldl f init = init ++ (l.map g).flatten := by
  intro l
  induction l with
  | nil => intro init; simp
  | cons x xs ih =>
    intro init
    simp only [List.foldl_cons, List.map_cons, List.flatten_cons]
    rw [hf init x, ih, List.append_assoc]

theorem compare_shape (A B : List IrEntity) :
    ComparePacketReplicationTableEntries A B =
      ((buildMap A).map (diffChunk (buildMap B))).flatten ++
      ((buildMap B).map (diffChunk2 (buildMap A))).flatten := by
  simp only [ComparePacketReplicationTableEntries]
  rw [foldl_append_shape (diffChunk2 (buildMap A)) _ (fun fs p => by
    simp only [diffChunk2]
    cases mapFind (buildMap A) p.1 with
    | none => rfl
    | some e => simp)]
  rw [foldl_append_shape (diffChunk (buildMap B)) _ (fun fs p => by
    simp only [diffChunk]
    cases mapFind (buildMap B) p.1 with
    | none => rfl
    | some e => exact compareEntities_shape p.2 e fs)]
  simp

/-! Counting discrepancy lines in the diff output. -/

theorem count_singleton_eq (a b : String) : [b].count a = if b = a then 1 else 0 := by
  simp [List.count_singleton]

theorem compare_count (A B : List IrEntity) (msg : String) :
    (ComparePacketReplicationTableEntries A B).count msg =
      ((buildMap A).map (fun p => (diffChunk (buildMap B) p).count msg)).sum +
      ((buildMap B).map (fun p => (diffChunk2 (buildMap A) p).count msg)).sum := by
  rw [compare_shape, List.count_append, List.count_flatten, List.count_flatten,
    List.map_map, List.map_map]
  rfl

theorem sum_map_single_key (m : List (Nat × IrEntity))
    (hnd : (m.map Prod.fst).Nodup) (g : Nat) (F : Nat × IrEntity → Nat)
    (hz : ∀ p, p.1 ≠ g → F p = 0) :
    (m.map F).sum = (match mapFind m g with
      | none => 0
      | some v => F (g, v)) := by
  induction m with
  | nil => simp [mapFind]
  | cons p rest ih =>
    obtain ⟨k2, v2⟩ := p
    simp only [List.map_cons, List.sum_cons, mapFind]
    simp only [List.map_cons] at hnd
    rcases List.nodup_cons.mp hnd with ⟨hk2, hrest⟩
    by_cases h : k2 = g
    · subst h
      rw [if_pos rfl]
      have hzero : (rest.map F).sum = 0 := by
        apply List.sum_eq_zero
        intro x hx
        obtain ⟨q, hq, rfl⟩ := List.mem_map.mp hx
        apply hz
        intro hqg
        apply hk2
        rw [← hqg]
        exact List.mem_map_of_mem Prod.fst hq
      rw [hzero]
      simp
    · rw [if_neg h, hz (k2, v2) h, ih hrest]
      simp

theorem chunk_count_cacheGroup (mB : List (Nat × IrEntity)) (p : Nat × IrEntity)
    (g : Nat) :
    (diffChunk mB p).count (cacheMissingGroupMsg g) =
      if p.1 = g ∧ g ∉ mB.map Prod.fst then 1 else 0 := by
  unfold diffChunk
  cases hf : mapFind mB p.1 with
  | none =>
    have hnk : p.1 ∉ mB.map Prod.fst := (mapFind_eq_none_iff mB p.1).mp hf
    by_cases hp : p.1 = g
    · subst hp
      rw [if_pos ⟨rfl, hnk⟩]
      simp [count_singleton_eq]
    · rw [if_neg (by tauto), count_singleton_eq,
        if_neg (fun hh => hp (cacheGroupMsg_inj hh))]
  | some e =>
    have hk : p.1 ∈ mB.map Prod.fst := mapFind_some_mem_keys hf
    rw [if_neg (by rintro ⟨rfl, hng⟩; exact hng hk)]
    have hred : (match some e with
        | none => [cacheMissingGroupMsg p.1]
        | some e => ComparePacketReplicationEntities p.2 e []) =
        ComparePacketReplicationEntities p.2 e [] := rfl
    rw [hred, List.count_eq_zero]
    intro hmem
    rw [cmpEmit_eq] at hmem
    rcases List.mem_append.mp hmem with hm | hm
    · obtain ⟨d, hd, he⟩ := List.mem_map.mp hm
      exact cacheGroupMsg_ne_cacheReplicaMsg g (groupIdOf p.2) d he.symm
    · obtain ⟨d, hd, he⟩ := List.mem_map.mp hm
      exact cacheGroupMsg_ne_appReplicaMsg g (groupIdOf p.2) d he.symm

theorem chunk_count_appGroup (mB : List (Nat × IrEntity)) (p : Nat × IrEntity)
    (g : Nat) :
    (diffChunk mB p).count (appDbMissingGroupMsg g) = 0 := by
  unfold diffChunk
  cases hf : mapFind mB p.1 with
  | none =>
    rw [count_singleton_eq,
      if_neg (fun hh => cacheGroupMsg_ne_appGroupMsg p.1 g hh)]
  | some e =>
    have hred : (match some e with
        | none => [cacheMissingGroupMsg p.1]
        | some e => ComparePacketReplicationEntities p.2 e []) =
        ComparePacketReplicationEntities p.2 e [] := rfl
    rw [hred, List.count_eq_zero]
    intro hmem
    rw [cmpEmit_eq] at hmem
    rcases List.mem_append.mp hmem with hm | hm
    · obtain ⟨d, hd, he⟩ := List.mem_map.mp hm
      exact appGroupMsg_ne_cacheReplicaMsg g (groupIdOf p.2) d he.symm
    · obtain ⟨d, hd, he⟩ := List.mem_map.mp hm
      exact appGroupMsg_ne_appReplicaMsg g (groupIdOf p.2) d he.symm

theorem chunk2_count_appGroup (mA : List (Nat × IrEntity)) (p : Nat × IrEntity)
    (g : Nat) :
    (diffChunk2 mA p).count (appDbMissingGroupMsg g) =
      if p.1 = g ∧ g ∉ mA.map Prod.fst then 1 else 0 := by
  unfold diffChunk2
  cases hf : mapFind mA p.1 with
  | none =>
    have hnk : p.1 ∉ mA.map Prod.fst := (mapFind_eq_none_iff mA p.1).mp hf
    by_cases hp : p.1 = g
    · subst hp
      rw [if_pos ⟨rfl, hnk⟩]
      simp [count_singleton_eq]
    · rw [if_neg (by tauto), count_singleton_eq,
        if_neg (fun hh => hp (appGroupMsg_inj hh))]
  | some e =>
    have hk : p.1 ∈ mA.map Prod.fst := mapFind_some_mem_keys hf
    rw [if_neg (by rintro ⟨rfl, hng⟩; exact hng hk)]
    rfl

theorem chunk2_count_cacheGroup (mA : List (Nat × IrEntity)) (p : Nat × IrEntity)
    (g : Nat) :
    (diffChunk2 mA p).count (cacheMissingGroupMsg g) = 0 := by
  unfold diffChunk2
  cases mapFind mA p.1 with
  | none =>
    rw [count_singleton_eq,
      if_neg (fun hh => cacheGroupMsg_ne_appGroupMsg g p.1 hh.symm)]
  | some e => rfl

theorem chunk2_count_cacheReplica (mA : List (Nat × IrEntity)) (p : Nat × IrEntity)
    (g : Nat) (x : String) :
    (diffChunk2 mA p).count (cacheMissingReplicaMsg x g) = 0 := by
  unfold diffChunk2
  cases mapFind mA p.1 with
  | none =>
    rw [count_singleton_eq,
      if_neg (fun hh => appGroupMsg_ne_cacheReplicaMsg p.1 g x hh)]
  | some e => rfl

theorem chunk2_count_appReplica (mA : List (Nat × IrEntity)) (p : Nat × IrEntity)
    (g : Nat) (x : String) :
    (diffChunk2 mA p).count (appDbMissingReplicaMsg x g) = 0 := by
  unfold diffChunk2
  cases mapFind mA p.1 with
  | none =>
    rw [count_singleton_eq,
      if_neg (fun hh => appGroupMsg_ne_appReplicaMsg p.1 g x hh)]
  | some e => rfl

/-- Whether one replica string x contributes a one-sided line for the ordered
pair of entities. -/
def pairReplicaCount (eA eB : IrEntity) (x : String) : Nat :=
  if x ∈ piSet (replicasOf eA) ∧ x ∉ piSet (replicasOf eB) then 1 else 0

theorem cmpEmit_count_cacheReplica (e1 e2 : IrEntity) (x : String) (g : Nat) :
    (ComparePacketReplicationEntities e1 e2 []).count (cacheMissingReplicaMsg x g) =
      if groupIdOf e1 = g then pairReplicaCount e1 e2 x else 0 := by
  rw [cmpEmit_eq, List.count_append]
  have h2 : ((setDifference (piSet (replicasOf e2)) (piSet (replicasOf e1))).map
      (fun d => appDbMissingReplicaMsg d (groupIdOf e1))).count
        (cacheMissingReplicaMsg x g) = 0 := by
    rw [List.count_eq_zero]
    intro hm
    obtain ⟨d, hd, he⟩ := List.mem_map.mp hm
    exact cacheReplicaMsg_ne_appReplicaMsg g (groupIdOf e1) x d he.symm
  rw [h2]
  by_cases hg : groupIdOf e1 = g
  · subst hg
    rw [List.count_map_of_injective _ _ (fun a b hab => (cacheReplicaMsg_inj hab).1) x]
    rw [setDifference_count _ _ (piSet_sorted _) (piSet_sorted _) x]
    simp [pairReplicaCount]
  · have h1 : ((setDifference (piSet (replicasOf e1)) (piSet (replicasOf e2))).map
        (fun d => cacheMissingReplicaMsg d (groupIdOf e1))).count
          (cacheMissingReplicaMsg x g) = 0 := by
      rw [List.count_eq_zero]
      intro hm
      obtain ⟨d, hd, he⟩ := List.mem_map.mp hm
      exact hg (cacheReplicaMsg_inj he).2
    rw [h1, if_neg hg]

theorem cmpEmit_count_appReplica (e1 e2 : IrEntity) (x : String) (g : Nat) :
    (ComparePacketReplicationEntities e1 e2 []).count (appDbMissingReplicaMsg x g) =
      if groupIdOf e1 = g then pairReplicaCount e2 e1 x else 0 := by
  rw [cmpEmit_eq, List.count_append]
  have h1 : ((setDifference (piSet (replicasOf e1)) (piSet (replicasOf e2))).map
      (fun d => cacheMissingReplicaMsg d (groupIdOf e1))).count
        (appDbMissingReplicaMsg x g) = 0 := by
    rw [List.count_eq_zero]
    intro hm
    obtain ⟨d, hd, he⟩ := List.mem_map.mp hm
    exact cacheReplicaMsg_ne_appReplicaMsg (groupIdOf e1) g d x he
  rw [h1]
  by_cases hg : groupIdOf e1 = g
  · subst hg
    rw [List.count_map_of_injective _ _ (fun a b hab => (appReplicaMsg_inj hab).1) x]
    rw [setDifference_count _ _ (piSet_sorted _) (piSet_sorted _) x]
    simp [pairReplicaCount]
  · have h2 : ((setDifference (piSet (replicasOf e2)) (piSet (replicasOf e1))).map
        (fun d => appDbMissingReplicaMsg d (groupIdOf e1))).count
          (appDbMissingReplicaMsg x g) = 0 := by
      rw [List.count_eq_zero]
      intro hm
      obtain ⟨d, hd, he⟩ := List.mem_map.mp hm
      exact hg (appReplicaMsg_inj he).2
    rw [h2, if_neg hg]

theorem chunk_count_cacheReplica (mB : List (Nat × IrEntity)) (p : Nat × IrEntity)
    (g : Nat) (x : String) (hid : groupIdOf p.2 = p.1) :
    (diffChunk mB p).count (cacheMissingReplicaMsg x g) =
      if p.1 = g then
        (match mapFind mB p.1 with
         | none => 0
         | some e2 => pairReplicaCount p.2 e2 x)
      else 0 := by
  unfold diffChunk
  cases hf : mapFind mB p.1 with
  | none =>
    rw [count_singleton_eq,
      if_neg (fun hh => cacheGroupMsg_ne_cacheReplicaMsg p.1 g x hh)]
    by_cases hp : p.1 = g <;> simp [hp]
  | some e2 =>
    rw [cmpEmit_count_cacheReplica, hid]

theorem chunk_count_appReplica (mB : List (Nat × IrEntity)) (p : Nat × IrEntity)
    (g : Nat) (x : String) (hid : groupIdOf p.2 = p.1) :
    (diffChunk mB p).count (appDbMissingReplicaMsg x g) =
      if p.1 = g then
        (match mapFind mB p.1 with
         | none => 0
         | some e2 => pairReplicaCount e2 p.2 x)
      else 0 := by
  unfold diffChunk
  cases hf : mapFind mB p.1 with
  | none =>
    rw [count_singleton_eq,
      if_neg (fun hh => cacheGroupMsg_ne_appReplicaMsg p.1 g x hh)]
    by_cases hp : p.1 = g <;> simp [hp]
  | some e2 =>
    rw [cmpEmit_count_appReplica, hid]

/-! Master count lemmas over the whole diff output. -/

/-- The number of one-sided replica lines for (g, x) determined by the two
group-id maps: one when both maps hold g and x lies in the first side's
port_instance set but not the second's, zero otherwise. -/
def replicaDiffCount (A B : List IrEntity) (g : Nat) (x : String) : Nat :=
  match mapFind (buildMap A) g, mapFind (buildMap B) g with
  | some eA, some eB => pairReplicaCount eA eB x
  | _, _ => 0

theorem count_cacheGroupMsg_total (A B : List IrEntity) (g : Nat) :
    (ComparePacketReplicationTableEntries A B).count (cacheMissingGroupMsg g) =
      if g ∈ (buildMap A).map Prod.fst ∧ g ∉ (buildMap B).map Prod.fst then 1
      else 0 := by
  rw [compare_count]
  have h2 : ((buildMap B).map
      (fun p => (diffChunk2 (buildMap A) p).count (cacheMissingGroupMsg g))).sum = 0 := by
    apply List.sum_eq_zero
    intro y hy
    obtain ⟨q, hq, rfl⟩ := List.mem_map.mp hy
    exact chunk2_count_cacheGroup _ _ _
  rw [h2, Nat.add_zero]
  rw [List.map_congr_left (fun p _ => chunk_count_cacheGroup (buildMap B) p g)]
  rw [sum_map_single_key _ (buildMap_keys_nodup A) g _ (fun p hp => by simp [hp])]
  cases hf : mapFind (buildMap A) g with
  | none =>
    have hn := (mapFind_eq_none_iff _ g).mp hf
    simp [hn]
  | some v =>
    have hm := mapFind_some_mem_keys hf
    by_cases hb : g ∈ (buildMap B).map Prod.fst <;> simp [hm, hb]

theorem count_appGroupMsg_total (A B : List IrEntity) (g : Nat) :
    (ComparePacketReplicationTableEntries A B).count (appDbMissingGroupMsg g) =
      if g ∈ (buildMap B).map Prod.fst ∧ g ∉ (buildMap A).map Prod.fst then 1
      else 0 := by
  rw [compare_count]
  have h1 : ((buildMap A).map
      (fun p => (diffChunk (buildMap B) p).count (appDbMissingGroupMsg g))).sum = 0 := by
    apply List.sum_eq_zero
    intro y hy
    obtain ⟨q, hq, rfl⟩ := List.mem_map.mp hy
    exact chunk_count_appGroup _ _ _
  rw [h1, Nat.zero_add]
  rw [List.map_congr_left (fun p _ => chunk2_count_appGroup (buildMap A) p g)]
  rw [sum_map_single_key _ (buildMap_keys_nodup B) g _ (fun p hp => by simp [hp])]
  cases hf : mapFind (buildMap B) g with
  | none =>
    have hn := (mapFind_eq_none_iff _ g).mp hf
    simp [hn]
  | some v =>
    have hm := mapFind_some_mem_keys hf
    by_cases hb : g ∈ (buildMap A).map Prod.fst <;> simp [hm, hb]

theorem count_cacheReplicaMsg_total (A B : List IrEntity) (g : Nat) (x : String) :
    (ComparePacketReplicationTableEntries A B).count (cacheMissingReplicaMsg x g) =
      replicaDiffCount A B g x := by
  rw [compare_count]
  have h2 : ((buildMap B).map
      (fun p => (diffChunk2 (buildMap A) p).count (cacheMissingReplicaMsg x g))).sum = 0 := by
    apply List.sum_eq_zero
    intro y hy
    obtain ⟨q, hq, rfl⟩ := List.mem_map.mp hy
    exact chunk2_count_cacheReplica _ _ _ _
  rw [h2, Nat.add_zero]
  rw [List.map_congr_left
    (fun p hp => chunk_count_cacheReplica (buildMap B) p g x (buildMap_ids A p hp))]
  rw [sum_map_single_key _ (buildMap_keys_nodup A) g _ (fun p hp => by simp [hp])]
  unfold replicaDiffCount
  cases hA : mapFind (buildMap A) g with
  | none => cases mapFind (buildMap B) g <;> rfl
  | some v => cases hB : mapFind (buildMap B) g <;> simp [hB]

theorem count_appReplicaMsg_total (A B : List IrEntity) (g : Nat) (x : String) :
    (ComparePacketReplicationTableEntries A B).count (appDbMissingReplicaMsg x g) =
      replicaDiffCount B A g x := by
  rw [compare_count]
  have h2 : ((buildMap B).map
      (fun p => (diffChunk2 (buildMap A) p).count (appDbMissingReplicaMsg x g))).sum = 0 := by
    apply List.sum_eq_zero
    intro y hy
    obtain ⟨q, hq, rfl⟩ := List.mem_map.mp hy
    exact chunk2_count_appReplica _ _ _ _
  rw [h2, Nat.add_zero]
  rw [List.map_congr_left
    (fun p hp => chunk_count_appReplica (buildMap B) p g x (buildMap_ids A p hp))]
  rw [sum_map_single_key _ (buildMap_keys_nodup A) g _ (fun p hp => by simp [hp])]
  unfold replicaDiffCount
  cases hA : mapFind (buildMap A) g with
  | none => cases mapFind (buildMap B) g <;> rfl
  | some v => cases hB : mapFind (buildMap B) g <;> simp [hB]

/-- C2: for a group id held by both sides' maps, the diff engine emits exactly
one cache-side discrepancy line per port_instance string present on the App DB
side but missing from the cache side, exactly one App-DB-side line per string
present only on the cache side, and no line for a string present on both; the
strings render the instance in decimal as port_instance. -/
theorem member_diff_exact (A B : List IrEntity) (g : Nat) (x : String)
    (eA eB : IrEntity)
    (hA : mapFind (buildMap A) g = some eA) (hB : mapFind (buildMap B) g = some eB) :
    (ComparePacketReplicationTableEntries A B).count (cacheMissingReplicaMsg x g) =
      (if x ∈ (replicasOf eA).map piStr ∧ x ∉ (replicasOf eB).map piStr then 1
       else 0) ∧
    (ComparePacketReplicationTableEntries A B).count (appDbMissingReplicaMsg x g) =
      (if x ∈ (replicasOf eB).map piStr ∧ x ∉ (replicasOf eA).map piStr then 1
       else 0) := by
  have hmem : ∀ (rs : List Replica) (y : String), y ∈ piSet rs ↔ y ∈ rs.map piStr := by
    intro rs y
    rw [piSet_mem, List.mem_map]
  constructor
  · rw [count_cacheReplicaMsg_total]
    unfold replicaDiffCount
    rw [hA, hB]
    simp only [pairReplicaCount, hmem]
  · rw [count_appReplicaMsg_total]
    unfold replicaDiffCount
    rw [hB, hA]
    simp only [pairReplicaCount, hmem]

/-- Entities used by the C2 witness. -/
def cmpWitnessA : IrEntity := ⟨⟨⟨10, [⟨"Ethernet0", 0⟩]⟩⟩⟩

/-- Entities used by the C2 witness. -/
def cmpWitnessB : IrEntity := ⟨⟨⟨10, [⟨"Ethernet0", 0⟩, ⟨"Ethernet4", 1⟩]⟩⟩⟩

theorem member_diff_exact_witness :
    (ComparePacketReplicationTableEntries [cmpWitnessA] [cmpWitnessB]).count
        (cacheMissingReplicaMsg "Ethernet4_1" 10) =
      (if "Ethernet4_1" ∈ (replicasOf cmpWitnessA).map piStr ∧
          "Ethernet4_1" ∉ (replicasOf cmpWitnessB).map piStr then 1 else 0) ∧
    (ComparePacketReplicationTableEntries [cmpWitnessA] [cmpWitnessB]).count
        (appDbMissingReplicaMsg "Ethernet4_1" 10) =
      (if "Ethernet4_1" ∈ (replicasOf cmpWitnessB).map piStr ∧
          "Ethernet4_1" ∉ (replicasOf cmpWitnessA).map piStr then 1 else 0) :=
  member_diff_exact [cmpWitnessA] [cmpWitnessB] 10 "Ethernet4_1"
    cmpWitnessA cmpWitnessB rfl rfl

/-- C3: for every group id present only on the App DB side, the diff engine
emits exactly one cache-missing-group line and no member-level replica line
naming that group; independently, for every group id present only on the
cache side it emits exactly one App-DB-missing-group line and likewise no
member-level line. The two directions are separate implications, so either
one applies on its own (for example against an empty other side). -/
theorem missing_group_one_discrepancy (A B : List IrEntity) (g : Nat) (x : String) :
    (g ∈ A.map groupIdOf → g ∉ B.map groupIdOf →
      (ComparePacketReplicationTableEntries A B).count (cacheMissingGroupMsg g) = 1 ∧
      cacheMissingReplicaMsg x g ∉ ComparePacketReplicationTableEntries A B ∧
      appDbMissingReplicaMsg x g ∉ ComparePacketReplicationTableEntries A B) ∧
    (g ∈ B.map groupIdOf → g ∉ A.map groupIdOf →
      (ComparePacketReplicationTableEntries A B).count (appDbMissingGroupMsg g) = 1 ∧
      cacheMissingReplicaMsg x g ∉ ComparePacketReplicationTableEntries A B ∧
      appDbMissingReplicaMsg x g ∉ ComparePacketReplicationTableEntries A B) := by
  constructor
  · intro hg1 hg2
    have hg1' : g ∈ (buildMap A).map Prod.fst := (buildMap_keys_iff A g).mpr hg1
    have hg2' : g ∉ (buildMap B).map Prod.fst :=
      fun hh => hg2 ((buildMap_keys_iff B g).mp hh)
    have hgB : mapFind (buildMap B) g = none := (mapFind_eq_none_iff _ g).mpr hg2'
    refine ⟨?_, ?_, ?_⟩
    · rw [count_cacheGroupMsg_total]
      simp [hg1', hg2']
    · rw [← List.count_eq_zero, count_cacheReplicaMsg_total]
      unfold replicaDiffCount
      rw [hgB]
      cases mapFind (buildMap A) g <;> rfl
    · rw [← List.count_eq_zero, count_appReplicaMsg_total]
      unfold replicaDiffCount
      rw [hgB]
  · intro hh1 hh2
    have hh1' : g ∈ (buildMap B).map Prod.fst := (buildMap_keys_iff B g).mpr hh1
    have hh2' : g ∉ (buildMap A).map Prod.fst :=
      fun hhh => hh2 ((buildMap_keys_iff A g).mp hhh)
    have hhA : mapFind (buildMap A) g = none := (mapFind_eq_none_iff _ g).mpr hh2'
    refine ⟨?_, ?_, ?_⟩
    · rw [count_appGroupMsg_total]
      simp [hh1', hh2']
    · rw [← List.count_eq_zero, count_cacheReplicaMsg_total]
      unfold replicaDiffCount
      rw [hhA]
    · rw [← List.count_eq_zero, count_appReplicaMsg_total]
      unfold replicaDiffCount
      rw [hhA]
      cases mapFind (buildMap B) g <;> rfl

theorem missing_group_one_discrepancy_witness :
    ((ComparePacketReplicationTableEntries [sampleEntity 7 "p" 0] []).count
        (cacheMissingGroupMsg 7) = 1 ∧
      cacheMissingReplicaMsg "p_0" 7 ∉
        ComparePacketReplicationTableEntries [sampleEntity 7 "p" 0] [] ∧
      appDbMissingReplicaMsg "p_0" 7 ∉
        ComparePacketReplicationTableEntries [sampleEntity 7 "p" 0] []) ∧
    ((ComparePacketReplicationTableEntries [] [sampleEntity 9 "q" 1]).count
        (appDbMissingGroupMsg 9) = 1 ∧
      cacheMissingReplicaMsg "q_1" 9 ∉
        ComparePacketReplicationTableEntries [] [sampleEntity 9 "q" 1] ∧
      appDbMissingReplicaMsg "q_1" 9 ∉
        ComparePacketReplicationTableEntries [] [sampleEntity 9 "q" 1]) :=
  ⟨(missing_group_one_discrepancy [sampleEntity 7 "p" 0] [] 7 "p_0").1
      (by decide) (by decide),
    (missing_group_one_discrepancy [] [sampleEntity 9 "q" 1] 9 "q_1").2
      (by decide) (by decide)⟩

/-! Length of the diff output and its symmetry. -/

theorem cmpEmit_length (e1 e2 : IrEntity) :
    (ComparePacketReplicationEntities e1 e2 []).length =
      (setDifference (piSet (replicasOf e1)) (piSet (replicasOf e2))).length +
      (setDifference (piSet (replicasOf e2)) (piSet (replicasOf e1))).length := by
  rw [cmpEmit_eq]
  simp

theorem compare_length (A B : List IrEntity) :
    (ComparePacketReplicationTableEntries A B).length =
      ((buildMap A).map (fun p => (diffChunk (buildMap B) p).length)).sum +
      ((buildMap B).map (fun p => (diffChunk2 (buildMap A) p).length)).sum := by
  rw [compare_shape, List.length_append, List.length_flatten, List.length_flatten,
    List.map_map, List.map_map]
  rfl

theorem sum_map_filter_split {α : Type} (m : List α) (F : α → Nat) (pred : α → Bool) :
    (m.map F).sum = ((m.filter pred).map F).sum +
      ((m.filter (fun x => ! pred x)).map F).sum := by
  induction m with
  | nil => simp
  | cons x xs ih =>
    by_cases hp : pred x
    · simp only [List.map_cons, List.sum_cons, List.filter_cons, hp, ih]
      simp
      omega
    · simp only [List.map_cons, List.sum_cons, List.filter_cons, hp, ih]
      simp
      omega

theorem sum_map_one {α : Type} (m : List α) : (m.map (fun _ => 1)).sum = m.length := by
  induction m with
  | nil => rfl
  | cons x xs ih =>
    simp only [List.map_cons, List.sum_cons, List.length_cons, ih]
    omega

theorem sum_ite_not (m : List (Nat × IrEntity)) (pred : Nat × IrEntity → Bool) :
    (m.map (fun q => if pred q then 0 else 1)).sum =
      (m.filter (fun q => ! pred q)).length := by
  induction m with
  | nil => rfl
  | cons x xs ih =>
    by_cases hp : pred x
    · simp [List.filter_cons, hp, ih]
    · simp only [List.map_cons, List.sum_cons, List.filter_cons, hp, ih]
      simp
      omega

theorem mapFind_of_mem {m : List (Nat × IrEntity)} (hnd : (m.map Prod.fst).Nodup)
    {p : Nat × IrEntity} (hp : p ∈ m) : mapFind m p.1 = some p.2 := by
  induction m with
  | nil => cases hp
  | cons q rest ih =>
    obtain ⟨k2, v2⟩ := q
    simp only [List.map_cons] at hnd
    rcases List.nodup_cons.mp hnd with ⟨hk2, hrest⟩
    rcases List.mem_cons.mp hp with rfl | hp2
    · simp [mapFind]
    · simp only [mapFind]
      by_cases hk : k2 = p.1
      · exfalso
        apply hk2
        rw [hk]
        exact List.mem_map_of_mem Prod.fst hp2
      · rw [if_neg hk]
        exact ih hrest hp2

theorem mapFind_mem : ∀ {m : List (Nat × IrEntity)} {g : Nat} {v : IrEntity},
    mapFind m g = some v → (g, v) ∈ m := by
  intro m
  induction m with
  | nil => intro g v h; cases h
  | cons q rest ih =>
    obtain ⟨k2, v2⟩ := q
    intro g v h
    simp only [mapFind] at h
    by_cases hk : k2 = g
    · rw [if_pos hk] at h
      injection h with h
      subst hk
      subst h
      exact List.mem_cons_self _ _
    · rw [if_neg hk] at h
      exact List.mem_cons_of_mem _ (ih h)

theorem chunk_length (mB : List (Nat × IrEntity)) (p : Nat × IrEntity) :
    (diffChunk mB p).length =
      match mapFind mB p.1 with
      | none => 1
      | some e2 => (ComparePacketReplicationEntities p.2 e2 []).length := by
  unfold diffChunk
  cases hf : mapFind mB p.1 with
  | none => rfl
  | some e => rfl

theorem chunk2_length (mA : List (Nat × IrEntity)) (q : Nat × IrEntity) :
    (diffChunk2 mA q).length = if (mapFind mA q.1).isSome then 0 else 1 := by
  unfold diffChunk2
  cases hf : mapFind mA q.1 with
  | none => rfl
  | some e => rfl

/-- Whether the other side's map holds this entry's group id. -/
def isSharedWith (mOther : List (Nat × IrEntity)) (p : Nat × IrEntity) : Bool :=
  (mapFind mOther p.1).isSome

/-- Member-diff line count for one group id shared by both maps. -/
def sharedWeight (mA mB : List (Nat × IrEntity)) (g : Nat) : Nat :=
  match mapFind mA g, mapFind mB g with
  | some eA, some eB =>
    (setDifference (piSet (replicasOf eA)) (piSet (replicasOf eB))).length +
    (setDifference (piSet (replicasOf eB)) (piSet (replicasOf eA))).length
  | _, _ => 0

theorem sharedWeight_comm (mA mB : List (Nat × IrEntity)) (g : Nat) :
    sharedWeight mA mB g = sharedWeight mB mA g := by
  unfold sharedWeight
  cases hA : mapFind mA g <;> cases hB : mapFind mB g <;> simp [Nat.add_comm]

theorem sorted_nat_eq_of_mem_iff : ∀ {l1 l2 : List Nat}, List.Sorted (· < ·) l1 →
    List.Sorted (· < ·) l2 → (∀ x, x ∈ l1 ↔ x ∈ l2) → l1 = l2 := by
  intro l1
  induction l1 with
  | nil =>
    intro l2 _ _ hm
    cases l2 with
    | nil => rfl
    | cons b l2' => exact absurd ((hm b).mpr (by simp)) (by simp)
  | cons a l1' ih =>
    intro l2 h1 h2 hm
    cases l2 with
    | nil => exact absurd ((hm a).mp (by simp)) (by simp)
    | cons b l2' =>
      rcases List.sorted_cons.mp h1 with ⟨ha1, h1'⟩
      rcases List.sorted_cons.mp h2 with ⟨hb2, h2'⟩
      have hab : a = b := by
        have ha2 : a ∈ b :: l2' := (hm a).mp (by simp)
        have hb1 : b ∈ a :: l1' := (hm b).mpr (by simp)
        rcases List.mem_cons.mp ha2 with h | h
        · exact h
        · rcases List.mem_cons.mp hb1 with h' | h'
          · exact h'.symm
          · exact absurd (ha1 b h') (not_lt.mpr (le_of_lt (hb2 a h)))
      subst hab
      have hm' : ∀ x, x ∈ l1' ↔ x ∈ l2' := by
        intro x
        constructor
        · intro hx
          rcases List.mem_cons.mp ((hm x).mp (List.mem_cons_of_mem _ hx)) with rfl | hx2
          · exact absurd (ha1 x hx) (lt_irrefl x)
          · exact hx2
        · intro hx
          rcases List.mem_cons.mp ((hm x).mpr (List.mem_cons_of_mem _ hx)) with rfl | hx2
          · exact absurd (hb2 x hx) (lt_irrefl x)
          · exact hx2
      rw [ih h1' h2' hm']

theorem shared_keys_eq (A B : List IrEntity) :
    ((buildMap A).filter (isSharedWith (buildMap B))).map Prod.fst =
      ((buildMap B).filter (isSharedWith (buildMap A))).map Prod.fst := by
  apply sorted_nat_eq_of_mem_iff
  · exact List.Pairwise.sublist (List.Sublist.map Prod.fst
      (List.filter_sublist (buildMap A))) (buildMap_keys_sorted A)
  · exact List.Pairwise.sublist (List.Sublist.map Prod.fst
      (List.filter_sublist (buildMap B))) (buildMap_keys_sorted B)
  · intro x
    constructor
    · intro hx
      obtain ⟨p, hp, rfl⟩ := List.mem_map.mp hx
      rcases List.mem_filter.mp hp with ⟨hpm, hps⟩
      obtain ⟨eB, heB⟩ := Option.isSome_iff_exists.mp hps
      have hfA : mapFind (buildMap A) p.1 = some p.2 :=
        mapFind_of_mem (buildMap_keys_nodup A) hpm
      refine List.mem_map.mpr ⟨(p.1, eB), List.mem_filter.mpr ⟨mapFind_mem heB, ?_⟩, rfl⟩
      unfold isSharedWith
      simp [hfA]
    · intro hx
      obtain ⟨p, hp, rfl⟩ := List.mem_map.mp hx
      rcases List.mem_filter.mp hp with ⟨hpm, hps⟩
      obtain ⟨eA, heA⟩ := Option.isSome_iff_exists.mp hps
      have hfB : mapFind (buildMap B) p.1 = some p.2 :=
        mapFind_of_mem (buildMap_keys_nodup B) hpm
      refine List.mem_map.mpr ⟨(p.1, eA), List.mem_filter.mpr ⟨mapFind_mem heA, ?_⟩, rfl⟩
      unfold isSharedWith
      simp [hfB]

theorem diff_total_length (A B : List IrEntity) :
    (ComparePacketReplicationTableEntries A B).length =
      ((((buildMap A).filter (isSharedWith (buildMap B))).map Prod.fst).map
        (sharedWeight (buildMap A) (buildMap B))).sum +
      ((buildMap A).filter (fun p => ! isSharedWith (buildMap B) p)).length +
      ((buildMap B).filter (fun p => ! isSharedWith (buildMap A) p)).length := by
  rw [compare_length]
  have ht2 : ((buildMap B).map (fun p => (diffChunk2 (buildMap A) p).length)).sum =
      ((buildMap B).filter (fun p => ! isSharedWith (buildMap A) p)).length := by
    rw [List.map_congr_left (fun q (_ : q ∈ buildMap B) => chunk2_length (buildMap A) q)]
    exact sum_ite_not _ _
  rw [ht2]
  rw [sum_map_filter_split (buildMap A) _ (isSharedWith (buildMap B))]
  have hsh : (((buildMap A).filter (isSharedWith (buildMap B))).map
      (fun p => (diffChunk (buildMap B) p).length)).sum =
      ((((buildMap A).filter (isSharedWith (buildMap B))).map Prod.fst).map
        (sharedWeight (buildMap A) (buildMap B))).sum := by
    rw [List.map_map]
    apply congrArg List.sum
    apply List.map_congr_left
    intro p hp
    rcases List.mem_filter.mp hp with ⟨hpm, hps⟩
    obtain ⟨e2, he2⟩ := Option.isSome_iff_exists.mp hps
    have hfA : mapFind (buildMap A) p.1 = some p.2 :=
      mapFind_of_mem (buildMap_keys_nodup A) hpm
    show (diffChunk (buildMap B) p).length =
      sharedWeight (buildMap A) (buildMap B) p.1
    rw [chunk_length, he2]
    unfold sharedWeight
    rw [hfA, he2]
    exact cmpEmit_length p.2 e2
  have hmi : (((buildMap A).filter (fun p => ! isSharedWith (buildMap B) p)).map
      (fun p => (diffChunk (buildMap B) p).length)).sum =
      ((buildMap A).filter (fun p => ! isSharedWith (buildMap B) p)).length := by
    rw [List.map_congr_left (g := fun _ => 1) (fun p hp => ?_), sum_map_one]
    rcases List.mem_filter.mp hp with ⟨hpm, hps⟩
    have hnone : mapFind (buildMap B) p.1 = none := by
      unfold isSharedWith at hps
      cases hcc : mapFind (buildMap B) p.1 with
      | none => rfl
      | some e =>
        rw [hcc] at hps
        simp at hps
    rw [chunk_length, hnone]
  rw [hsh, hmi]

/-- C9: the diff engine's report for swapped inputs has the same total number
of discrepancy lines, and each underlying fact is reported in the
complementary direction: a cache-missing-group (or cache-missing-replica)
line for the pair (A, B) appears exactly as often as the App-DB-missing
counterpart for (B, A). -/
theorem diff_report_symmetric (A B : List IrEntity) (g : Nat) (x : String) :
    (ComparePacketReplicationTableEntries A B).length =
      (ComparePacketReplicationTableEntries B A).length ∧
    (ComparePacketReplicationTableEntries A B).count (cacheMissingGroupMsg g) =
      (ComparePacketReplicationTableEntries B A).count (appDbMissingGroupMsg g) ∧
    (ComparePacketReplicationTableEntries A B).count (cacheMissingReplicaMsg x g) =
      (ComparePacketReplicationTableEntries B A).count (appDbMissingReplicaMsg x g) := by
  refine ⟨?_, ?_, ?_⟩
  · rw [diff_total_length, diff_total_length]
    rw [shared_keys_eq A B]
    have hw : ((((buildMap B).filter (isSharedWith (buildMap A))).map Prod.fst).map
        (sharedWeight (buildMap A) (buildMap B))).sum =
        ((((buildMap B).filter (isSharedWith (buildMap A))).map Prod.fst).map
          (sharedWeight (buildMap B) (buildMap A))).sum := by
      apply congrArg List.sum
      apply List.map_congr_left
      intro k _
      exact sharedWeight_comm _ _ k
    rw [hw]
    omega
  · rw [count_cacheGroupMsg_total, count_appGroupMsg_total]
  · rw [count_cacheReplicaMsg_total, count_appReplicaMsg_total]

end PacketReplication
